import Mathlib

/-!
# Shallow embedding of carcara's polygon analysis functions

Source: `src/carcara/modules/carcara_geometry.py`, section
"POLYGON ANALYSIS FUNCTIONS": `point_in_polygon`,
`point_to_polygon_distance`, `polygon_centroid`, `polylabel`,
`find_interior_point`.

Modelling conventions:
* Python floats are embedded as exact rationals `ℚ`.
* `math.sqrt` is an abstract parameter `sq : ℚ → ℚ`; theorems that depend on
  properties of the square root state them as hypotheses on `sq`.
* `float('inf')` (the initial `min_dist`) is `⊤ : WithTop ℚ`.
* A raised Python exception (`IndexError` on `vertices[0]` of an empty list,
  `ValueError` on `min()`/`max()` of an empty sequence, `NameError` on reading
  the unassigned `xinters`, `ZeroDivisionError`) is a `none` result.
-/

/-- A 2D point `(x, y)`, the tuples the Python code works with. -/
abbrev Point := ℚ × ℚ

/-- The directed edges `(vertices[i-1], vertices[i % n])`, `i = 1..n`, walked
by the loop of `point_in_polygon` via modulo indexing: consecutive pairs plus
the closing edge from the last vertex back to the first. -/
def cycleEdges (vs : List Point) : List (Point × Point) :=
  match vs with
  | [] => []
  | v :: _ => vs.zip (vs.tail ++ [v])

/-- One iteration of the `point_in_polygon` loop on edge `e = (p1, p2)`.
The state is `(inside, xinters)`, where `xinters : Option ℚ` is `none` while
the Python variable `xinters` is still unassigned; reading it unassigned
raises `NameError`, modelled by the `none` result. -/
def pipStep (x y : ℚ) (st : Bool × Option ℚ) (e : Point × Point) :
    Option (Bool × Option ℚ) :=
  if y > min e.1.2 e.2.2 ∧ y ≤ max e.1.2 e.2.2 ∧ x ≤ max e.1.1 e.2.1 then
    let xint : Option ℚ :=
      if e.1.2 ≠ e.2.2 then
        some ((y - e.1.2) * (e.2.1 - e.1.1) / (e.2.2 - e.1.2) + e.1.1)
      else st.2
    if e.1.1 = e.2.1 then some (!st.1, xint)
    else
      match xint with
      | none => none
      | some xi => some (if x ≤ xi then !st.1 else st.1, xint)
  else some st

/-- `point_in_polygon(x, y, vertices)`: ray casting test. `none` models a
raised exception (`IndexError` reading `vertices[0]` of an empty list, or
`NameError` reading `xinters` before assignment). -/
def point_in_polygon (x y : ℚ) (vs : List Point) : Option Bool :=
  match vs with
  | [] => none
  | _ :: _ => ((cycleEdges vs).foldlM (pipStep x y) (false, none)).map Prod.fst

/-- One segment's distance in `point_to_polygon_distance`: distance from
`(x, y)` to the segment `s = ((x1, y1), (x2, y2))`, except that `sq` stands
for `math.sqrt`.  The `none` models a `ZeroDivisionError` on the division by
`dx*dx + dy*dy` (which lemma `segDist_eq` shows to be unreachable). -/
def segDist (sq : ℚ → ℚ) (x y : ℚ) (s : Point × Point) : Option ℚ :=
  let dx := s.2.1 - s.1.1
  let dy := s.2.2 - s.1.2
  if dx = 0 ∧ dy = 0 then some (sq ((x - s.1.1) ^ 2 + (y - s.1.2) ^ 2))
  else if dx * dx + dy * dy = 0 then none
  else
    let t := max 0 (min 1 (((x - s.1.1) * dx + (y - s.1.2) * dy) / (dx * dx + dy * dy)))
    some (sq ((x - (s.1.1 + t * dx)) ^ 2 + (y - (s.1.2 + t * dy)) ^ 2))

/-- Total value of `segDist` (the division-by-zero branch is unreachable,
see `segDist_eq`). -/
def segD (sq : ℚ → ℚ) (x y : ℚ) (s : Point × Point) : ℚ :=
  let dx := s.2.1 - s.1.1
  let dy := s.2.2 - s.1.2
  if dx = 0 ∧ dy = 0 then sq ((x - s.1.1) ^ 2 + (y - s.1.2) ^ 2)
  else
    let t := max 0 (min 1 (((x - s.1.1) * dx + (y - s.1.2) * dy) / (dx * dx + dy * dy)))
    sq ((x - (s.1.1 + t * dx)) ^ 2 + (y - (s.1.2 + t * dy)) ^ 2)

/-- `point_to_polygon_distance(x, y, vertices)`: minimum of the segment
distances over consecutive vertex pairs `(vertices[i], vertices[i+1])`,
`i = 0..n-2`, starting from `min_dist = float('inf')`. -/
def point_to_polygon_distance (sq : ℚ → ℚ) (x y : ℚ) (vs : List Point) :
    Option (WithTop ℚ) :=
  (vs.zip vs.tail).foldlM
    (fun m s => (segDist sq x y s).map (fun d => min m (d : WithTop ℚ)))
    (⊤ : WithTop ℚ)

/-- Total value of `point_to_polygon_distance` (see
`point_to_polygon_distance_eq`). -/
def distVal (sq : ℚ → ℚ) (x y : ℚ) (vs : List Point) : WithTop ℚ :=
  (vs.zip vs.tail).foldl (fun m s => min m ((segD sq x y s : ℚ) : WithTop ℚ))
    (⊤ : WithTop ℚ)

/-- `polygon_centroid(vertices)`: arithmetic mean of the vertex coordinates,
dropping the duplicated last vertex when `vertices[0] == vertices[-1]`.
On the empty list the Python code raises `IndexError` evaluating
`vertices[0]` (before its own `if not unique_vertices` guard), hence `none`. -/
def polygon_centroid (vs : List Point) : Option Point :=
  match vs with
  | [] => none
  | v :: rest =>
    let uniq :=
      if v = (v :: rest).getLast (List.cons_ne_nil v rest) then (v :: rest).dropLast
      else v :: rest
    match uniq with
    | [] => some (0, 0)
    | u :: us =>
      some (((u :: us).map Prod.fst).sum / (((u :: us).length : ℚ)),
            ((u :: us).map Prod.snd).sum / (((u :: us).length : ℚ)))

/-- Python's `min` on a nonempty list (`min([])` raises; the 0 default is
never used by `polylabel`, which guards the list's nonemptiness). -/
def pyMin (l : List ℚ) : ℚ :=
  match l with
  | [] => 0
  | a :: t => t.foldl min a

/-- Python's `max` on a nonempty list. -/
def pyMax (l : List ℚ) : ℚ :=
  match l with
  | [] => 0
  | a :: t => t.foldl max a

/-- `min_x` of `polylabel`: minimum of the x-coordinates of `vertices[:-1]`. -/
def plMinX (vs : List Point) : ℚ := pyMin (vs.dropLast.map Prod.fst)

/-- `max_x` of `polylabel`. -/
def plMaxX (vs : List Point) : ℚ := pyMax (vs.dropLast.map Prod.fst)

/-- `min_y` of `polylabel`. -/
def plMinY (vs : List Point) : ℚ := pyMin (vs.dropLast.map Prod.snd)

/-- `max_y` of `polylabel`. -/
def plMaxY (vs : List Point) : ℚ := pyMax (vs.dropLast.map Prod.snd)

/-- `cell_size = max(min(width, height) / 20, precision)`. -/
def plCell (vs : List Point) (precision : ℚ) : ℚ :=
  max (min (plMaxX vs - plMinX vs) (plMaxY vs - plMinY vs) / 20) precision

/-- The points `lo, lo + step, lo + 2*step, ...` visited by a Python loop
`while v <= hi: ...; v += step` (for `step > 0` and `lo ≤ hi`, exactly
`⌊(hi - lo)/step⌋ + 1` of them). -/
def axisPoints (lo hi step : ℚ) : List ℚ :=
  (List.range (Nat.floor ((hi - lo) / step) + 1)).map (fun i => lo + (i : ℚ) * step)

/-- The grid points scanned by `polylabel`, in scan order: `y` outer loop,
`x` inner loop, both from the bounding-box minimum to its maximum in steps of
`cell_size`. -/
def polylabelGrid (vs : List Point) (precision : ℚ) : List Point :=
  (axisPoints (plMinY vs) (plMaxY vs) (plCell vs precision)).flatMap
    (fun y => (axisPoints (plMinX vs) (plMaxX vs) (plCell vs precision)).map
      (fun x => (x, y)))

/-- The bounding-box midpoint `((min_x + max_x)/2, (min_y + max_y)/2)`,
`polylabel`'s fallback when no grid point lies inside. -/
def plMid (vs : List Point) : Point :=
  ((plMinX vs + plMaxX vs) / 2, (plMinY vs + plMaxY vs) / 2)

/-- One iteration of `polylabel`'s grid scan at grid point `p`, updating
`(best_point, best_distance)`; exceptions propagate as `none`. -/
def polylabelStep (sq : ℚ → ℚ) (vs : List Point)
    (st : Option Point × WithTop ℚ) (p : Point) :
    Option (Option Point × WithTop ℚ) :=
  match point_in_polygon p.1 p.2 vs with
  | none => none
  | some b =>
    if b then
      match point_to_polygon_distance sq p.1 p.2 vs with
      | none => none
      | some d => if st.2 < d then some (some p, d) else some st
    else some st

/-- Total value of one grid-scan iteration (see `polylabelStep_eq`). -/
def plStepP (sq : ℚ → ℚ) (vs : List Point)
    (st : Option Point × WithTop ℚ) (p : Point) : Option Point × WithTop ℚ :=
  if point_in_polygon p.1 p.2 vs = some true then
    if st.2 < distVal sq p.1 p.2 vs then (some p, distVal sq p.1 p.2 vs) else st
  else st

/-- `polylabel(vertices, precision)`: grid search for the pole of
inaccessibility.  `none` models the `ValueError` raised by `min()` on an
empty sequence when `vertices[:-1]` is empty; the `cell_size ≤ 0` branch is
`none` because there the Python `while` loops never terminate (with the
default `precision = 0.01` this cannot happen). -/
def polylabel (sq : ℚ → ℚ) (vs : List Point) (precision : ℚ) :
    Option (Point × WithTop ℚ) :=
  if vs.dropLast = [] then none
  else if 0 < plCell vs precision then
    match (polylabelGrid vs precision).foldlM (polylabelStep sq vs)
        (none, ((-1 : ℚ) : WithTop ℚ)) with
    | none => none
    | some (none, _) => some (plMid vs, ((0 : ℚ) : WithTop ℚ))
    | some (some p, d) => some (p, d)
  else none

/-- `find_interior_point(vertices, precision)`: centroid-first strategy with
`polylabel` fallback, tagging the result with the method used. -/
def find_interior_point (sq : ℚ → ℚ) (vs : List Point) (precision : ℚ) :
    Option (Point × String) :=
  match polygon_centroid vs with
  | none => none
  | some c =>
    match point_in_polygon c.1 c.2 vs with
    | none => none
    | some b =>
      if b then some (c, "centroid")
      else
        match polylabel sq vs precision with
        | none => none
        | some (p, _) => some (p, "polylabel")

/-- The closed square ring of the spec's worked example. -/
def squareRing : List Point :=
  [(0, 0), (10, 0), (10, 10), (0, 10), (0, 0)]

/-- Total value of one `point_in_polygon` iteration: `pipStep` never takes its
`none` branch (see `pipStep_eq`), because the Y-bracket guard forces
`p1y ≠ p2y`, so `xinters` is always assigned before it is read. -/
def pipStepP (x y : ℚ) (st : Bool × Option ℚ) (e : Point × Point) :
    Bool × Option ℚ :=
  if y > min e.1.2 e.2.2 ∧ y ≤ max e.1.2 e.2.2 ∧ x ≤ max e.1.1 e.2.1 then
    let xint : Option ℚ :=
      if e.1.2 ≠ e.2.2 then
        some ((y - e.1.2) * (e.2.1 - e.1.1) / (e.2.2 - e.1.2) + e.1.1)
      else st.2
    if e.1.1 = e.2.1 then (!st.1, xint)
    else
      match xint with
      | none => st
      | some xi => (if x ≤ xi then !st.1 else st.1, xint)
  else st

/-- The boolean value computed by `point_in_polygon` on a nonempty list
(see `point_in_polygon_eq`). -/
def pipVal (x y : ℚ) (vs : List Point) : Bool :=
  ((cycleEdges vs).foldl (pipStepP x y) (false, none)).1

/-- A concrete stand-in for `math.sqrt`, exact at the only value the square
example needs. -/
def sqW : ℚ → ℚ := fun q => if q = 25 then 5 else 0

/-- The identity function, a concrete stand-in for `math.sqrt` in witnesses
whose conclusions do not depend on particular square-root values. -/
def sqId : ℚ → ℚ := fun q => q

/-- A degenerate (zero-height) closed ring: no grid point lies inside it. -/
def thinRing : List Point := [(0, 0), (10, 0), (0, 0)]

/-- The orientation (signed double area) of the triple `a`, `b`, `p`:
positive when `p` lies strictly to the left of the directed line `a -> b`. -/
def orient (a b p : Point) : ℚ :=
  (b.1 - a.1) * (p.2 - a.2) - (b.2 - a.2) * (p.1 - a.1)

/-- The x-coordinate at which the edge `e` meets the horizontal line at
height `y` (the `xinters` of `point_in_polygon`). -/
def xinterOf (y : ℚ) (e : Point × Point) : ℚ :=
  (y - e.1.2) * (e.2.1 - e.1.1) / (e.2.2 - e.1.2) + e.1.1

/-- Whether one `point_in_polygon` iteration toggles the `inside` flag on
edge `e` (see `pipStepP_fst`). -/
def toggleB (x y : ℚ) (e : Point × Point) : Bool :=
  decide (y > min e.1.2 e.2.2 ∧ y ≤ max e.1.2 e.2.2 ∧ x ≤ max e.1.1 e.2.1) &&
  (decide (e.1.1 = e.2.1) || decide (x ≤ xinterOf y e))

/-- The edge crosses the horizontal line at height `y` going upward
(half-open bracket, as in the ray caster's `y > min` / `y <= max` test). -/
def upwardAt (y : ℚ) (e : Point × Point) : Prop := e.1.2 < y ∧ y ≤ e.2.2

/-- The edge crosses the horizontal line at height `y` going downward. -/
def downwardAt (y : ℚ) (e : Point × Point) : Prop := e.2.2 < y ∧ y ≤ e.1.2

/-- The consecutive vertex triples `(v[i], v[i+1 mod n], v[i+2 mod n])` of a
ring, i.e. its corner turns. -/
def cycleTriples (l : List Point) : List (Point × Point × Point) :=
  l.zip ((l.rotate 1).zip (l.rotate 2))

/-- Counterclockwise convex ring: every vertex lies weakly to the left of
every directed edge, and every corner is a strict left turn. -/
def ccwRing (l : List Point) : Prop :=
  (∀ e ∈ cycleEdges l, ∀ p ∈ l, 0 ≤ orient e.1 e.2 p) ∧
  (∀ tr ∈ cycleTriples l, 0 < orient tr.1 tr.2.1 tr.2.2)

/-- Clockwise convex ring (the mirror image of `ccwRing`). -/
def cwRing (l : List Point) : Prop :=
  (∀ e ∈ cycleEdges l, ∀ p ∈ l, orient e.1 e.2 p ≤ 0) ∧
  (∀ tr ∈ cycleTriples l, orient tr.1 tr.2.1 tr.2.2 < 0)

/-- A convex simple polygon given as an open ring: at least 3 pairwise
distinct vertices, every corner a strict turn, all vertices on one side of
every edge (in either orientation). -/
def convexRing (l : List Point) : Prop :=
  3 ≤ l.length ∧ l.Nodup ∧ (ccwRing l ∨ cwRing l)

/-- The vertex centroid of an open ring (what `polygon_centroid` computes
once the duplicated closing vertex is dropped). -/
def centroidPt (l : List Point) : Point :=
  ((l.map Prod.fst).sum / ((l.length : ℚ)), (l.map Prod.snd).sum / ((l.length : ℚ)))

theorem foldlM_eq_some {α β : Type} (f : β → α → Option β) (g : β → α → β)
    (hfg : ∀ b a, f b a = some (g b a)) :
    ∀ (l : List α) (b : β), l.foldlM f b = some (l.foldl g b) := by
  intro l
  induction l with
  | nil => intro b; rfl
  | cons a t ih =>
    intro b
    rw [List.foldlM_cons, hfg b a, List.foldl_cons]
    exact ih (g b a)

theorem pipStep_eq (x y : ℚ) (st : Bool × Option ℚ) (e : Point × Point) :
    pipStep x y st e = some (pipStepP x y st e) := by
  unfold pipStep pipStepP
  by_cases hg : y > min e.1.2 e.2.2 ∧ y ≤ max e.1.2 e.2.2 ∧ x ≤ max e.1.1 e.2.1
  · have hy : e.1.2 ≠ e.2.2 := by
      intro h
      rw [h, min_self, max_self] at hg
      exact absurd hg.2.1 (not_le.mpr hg.1)
    rw [if_pos hg, if_pos hg, if_pos hy]
    by_cases hx : e.1.1 = e.2.1
    · rw [if_pos hx, if_pos hx]
    · rw [if_neg hx, if_neg hx]
  · rw [if_neg hg, if_neg hg]

theorem point_in_polygon_eq (x y : ℚ) (v : Point) (rest : List Point) :
    point_in_polygon x y (v :: rest) = some (pipVal x y (v :: rest)) := by
  show ((cycleEdges (v :: rest)).foldlM (pipStep x y) (false, none)).map Prod.fst = _
  rw [foldlM_eq_some (pipStep x y) (pipStepP x y) (pipStep_eq x y)]
  rfl

theorem pipStepP_self (x y : ℚ) (st : Bool × Option ℚ) (v : Point) :
    pipStepP x y st (v, v) = st := by
  have h : ¬(y > min v.2 v.2 ∧ y ≤ max v.2 v.2 ∧ x ≤ max v.1 v.1) := by
    rintro ⟨h1, h2, _⟩
    rw [min_self] at h1
    rw [max_self] at h2
    exact absurd h2 (not_le.mpr h1)
  exact if_neg h

theorem cycleEdges_closed (v : Point) (rest : List Point) :
    cycleEdges ((v :: rest) ++ [v]) = cycleEdges (v :: rest) ++ [(v, v)] := by
  show (v :: (rest ++ [v])).zip ((rest ++ [v]) ++ [v]) =
    (v :: rest).zip (rest ++ [v]) ++ [(v, v)]
  rw [show v :: (rest ++ [v]) = (v :: rest) ++ [v] from rfl]
  rw [List.zip_append (by simp)]
  simp

/-- Claim C10: in `point_in_polygon`, the unassigned-`xinters` branch is
unreachable — every loop iteration and every call on a nonempty vertex list
produces a value (the `y > min` / `y ≤ max` bracket forces `p1y ≠ p2y`
whenever the disjunct `x <= xinters` is evaluated). -/
theorem point_in_polygon_xinters_total (x y : ℚ) (st : Bool × Option ℚ)
    (e : Point × Point) (v : Point) (rest : List Point) :
    (pipStep x y st e).isSome = true ∧
    (point_in_polygon x y (v :: rest)).isSome = true := by
  constructor
  · rw [pipStep_eq]; rfl
  · rw [point_in_polygon_eq]; rfl

/-- Claim C8: `point_in_polygon` returns the same result on an open ring as
on its explicitly closed version: the modulo indexing already walks the
closing edge, and the extra zero-length edge `(v0, v0)` contributes no
toggle. -/
theorem point_in_polygon_closed_open (x y : ℚ) (v : Point) (rest : List Point) :
    point_in_polygon x y ((v :: rest) ++ [v]) = point_in_polygon x y (v :: rest) := by
  have hcons : (v :: rest) ++ [v] = v :: (rest ++ [v]) := rfl
  rw [hcons, point_in_polygon_eq, point_in_polygon_eq]
  have : pipVal x y (v :: (rest ++ [v])) = pipVal x y (v :: rest) := by
    unfold pipVal
    rw [← hcons, cycleEdges_closed, List.foldl_append, List.foldl_cons,
      pipStepP_self, List.foldl_nil]
  rw [this]

/-- Claim C1: contrary to the spec, `polygon_centroid` applied to an empty
vertex list does not return `(0, 0)`: the Python code raises `IndexError`
evaluating `vertices[0]` before its own emptiness guard. -/
theorem polygon_centroid_empty : polygon_centroid [] = none := rfl

theorem segDist_eq (sq : ℚ → ℚ) (x y : ℚ) (s : Point × Point) :
    segDist sq x y s = some (segD sq x y s) := by
  unfold segDist segD
  by_cases h0 : s.2.1 - s.1.1 = 0 ∧ s.2.2 - s.1.2 = 0
  · rw [if_pos h0, if_pos h0]
  · have hden : ¬(s.2.1 - s.1.1) * (s.2.1 - s.1.1) + (s.2.2 - s.1.2) * (s.2.2 - s.1.2) = 0 := by
      intro hz
      have h1 : (s.2.1 - s.1.1) * (s.2.1 - s.1.1) = 0 := by
        nlinarith [mul_self_nonneg (s.2.1 - s.1.1), mul_self_nonneg (s.2.2 - s.1.2)]
      have h2 : (s.2.2 - s.1.2) * (s.2.2 - s.1.2) = 0 := by
        nlinarith [mul_self_nonneg (s.2.1 - s.1.1), mul_self_nonneg (s.2.2 - s.1.2)]
      exact h0 ⟨mul_self_eq_zero.mp h1, mul_self_eq_zero.mp h2⟩
    rw [if_neg h0, if_neg h0, if_neg hden]

theorem point_to_polygon_distance_eq (sq : ℚ → ℚ) (x y : ℚ) (vs : List Point) :
    point_to_polygon_distance sq x y vs = some (distVal sq x y vs) := by
  unfold point_to_polygon_distance distVal
  apply foldlM_eq_some
  intro m s
  rw [segDist_eq]
  rfl

theorem segD_nonneg (sq : ℚ → ℚ) (hsq : ∀ q : ℚ, 0 ≤ q → 0 ≤ sq q)
    (x y : ℚ) (s : Point × Point) : 0 ≤ segD sq x y s := by
  unfold segD
  by_cases h0 : s.2.1 - s.1.1 = 0 ∧ s.2.2 - s.1.2 = 0
  · rw [if_pos h0]
    exact hsq _ (by positivity)
  · rw [if_neg h0]
    exact hsq _ (by positivity)

theorem distVal_nonneg (sq : ℚ → ℚ) (hsq : ∀ q : ℚ, 0 ≤ q → 0 ≤ sq q)
    (x y : ℚ) (vs : List Point) : (0 : WithTop ℚ) ≤ distVal sq x y vs := by
  unfold distVal
  have haux : ∀ (l : List (Point × Point)) (m : WithTop ℚ), (0 : WithTop ℚ) ≤ m →
      (0 : WithTop ℚ) ≤ l.foldl (fun m s => min m ((segD sq x y s : ℚ) : WithTop ℚ)) m := by
    intro l
    induction l with
    | nil => intro m hm; exact hm
    | cons s t ih =>
      intro m hm
      rw [List.foldl_cons]
      refine ih _ (le_min hm ?_)
      exact_mod_cast segD_nonneg sq hsq x y s
  exact haux _ ⊤ le_top

theorem polygon_centroid_isSome (v : Point) (rest : List Point) :
    (polygon_centroid (v :: rest)).isSome = true := by
  have h : polygon_centroid (v :: rest) =
      match (if v = (v :: rest).getLast (List.cons_ne_nil v rest)
        then (v :: rest).dropLast else v :: rest) with
      | [] => some ((0 : ℚ), (0 : ℚ))
      | u :: us =>
        some (((u :: us).map Prod.fst).sum / (((u :: us).length : ℚ)),
              ((u :: us).map Prod.snd).sum / (((u :: us).length : ℚ))) := rfl
  rw [h]
  split <;> rfl

/-- Claim C9: a repeated consecutive vertex (zero-length segment) does not
make `point_to_polygon_distance` crash: the division by the squared segment
length is avoided for such a segment and the point-to-point distance to the
vertex is used instead. -/
theorem point_to_polygon_distance_degenerate (sq : ℚ → ℚ) (x y : ℚ) (v : Point)
    (l1 l2 vs : List Point) (hvs : vs = l1 ++ v :: v :: l2) :
    segDist sq x y (v, v) = some (sq ((x - v.1) ^ 2 + (y - v.2) ^ 2)) ∧
    (point_to_polygon_distance sq x y vs).isSome = true := by
  constructor
  · unfold segDist
    exact if_pos ⟨sub_self v.1, sub_self v.2⟩
  · rw [point_to_polygon_distance_eq]
    rfl

/-- Witness for C9 at the concrete degenerate list `[(0,0), (0,0)]`. -/
theorem point_to_polygon_distance_degenerate_witness :
    ([((0 : ℚ), (0 : ℚ))] ++ ((0 : ℚ), (0 : ℚ)) :: ((0 : ℚ), (0 : ℚ)) :: [] =
      [((0 : ℚ), (0 : ℚ)), (0, 0), (0, 0)]) ∧
    (segDist sqId 0 0 (((0 : ℚ), (0 : ℚ)), ((0 : ℚ), (0 : ℚ))) =
      some (sqId ((0 - 0) ^ 2 + (0 - 0) ^ 2)) ∧
    (point_to_polygon_distance sqId 0 0 [((0 : ℚ), (0 : ℚ)), (0, 0), (0, 0)]).isSome = true) :=
  ⟨rfl, point_to_polygon_distance_degenerate sqId 0 0 ((0 : ℚ), (0 : ℚ))
    [((0 : ℚ), (0 : ℚ))] [] [((0 : ℚ), (0 : ℚ)), (0, 0), (0, 0)] rfl⟩

theorem polylabelStep_eq (sq : ℚ → ℚ) (v : Point) (rest : List Point)
    (st : Option Point × WithTop ℚ) (p : Point) :
    polylabelStep sq (v :: rest) st p = some (plStepP sq (v :: rest) st p) := by
  unfold polylabelStep plStepP
  rw [point_in_polygon_eq, point_to_polygon_distance_eq]
  cases hb : pipVal p.1 p.2 (v :: rest) with
  | false => simp [hb]
  | true =>
    by_cases hlt : st.2 < distVal sq p.1 p.2 (v :: rest) <;> simp [hlt]

theorem polylabel_eq_of_fold (sq : ℚ → ℚ) (v : Point) (rest : List Point)
    (precision : ℚ) (hbase : (v :: rest).dropLast ≠ [])
    (hcell : 0 < plCell (v :: rest) precision)
    (bp : Option Point) (d : WithTop ℚ)
    (hfold : (polylabelGrid (v :: rest) precision).foldl (plStepP sq (v :: rest))
      (none, ((-1 : ℚ) : WithTop ℚ)) = (bp, d)) :
    polylabel sq (v :: rest) precision =
      match bp with
      | none => some (plMid (v :: rest), ((0 : ℚ) : WithTop ℚ))
      | some p => some (p, d) := by
  unfold polylabel
  rw [if_neg hbase, if_pos hcell,
    foldlM_eq_some _ _ (polylabelStep_eq sq v rest)]
  simp only [hfold]
  cases bp <;> rfl

theorem plScan_skip_all (sq : ℚ → ℚ) (vs : List Point) (l : List Point)
    (st : Option Point × WithTop ℚ)
    (h : ∀ p ∈ l, point_in_polygon p.1 p.2 vs ≠ some true) :
    l.foldl (plStepP sq vs) st = st := by
  induction l generalizing st with
  | nil => rfl
  | cons q t ih =>
    rw [List.foldl_cons]
    have hq : plStepP sq vs st q = st := by
      unfold plStepP
      rw [if_neg (h q (by simp))]
    rw [hq]
    exact ih st (fun p hp => h p (by simp [hp]))

/-- Claim C6: when no sampled grid point lies inside the polygon, `polylabel`
falls back to the bounding-box midpoint (bounding box over the vertices
excluding the last one) paired with distance exactly 0. -/
theorem polylabel_fallback_midpoint (sq : ℚ → ℚ) (v : Point) (rest : List Point)
    (precision : ℚ) (hbase : (v :: rest).dropLast ≠ []) (hp : 0 < precision)
    (hout : ∀ p ∈ polylabelGrid (v :: rest) precision,
      point_in_polygon p.1 p.2 (v :: rest) ≠ some true) :
    polylabel sq (v :: rest) precision =
      some (plMid (v :: rest), ((0 : ℚ) : WithTop ℚ)) := by
  have hcell : 0 < plCell (v :: rest) precision :=
    lt_of_lt_of_le hp (le_max_right _ _)
  exact polylabel_eq_of_fold sq v rest precision hbase hcell none
    ((-1 : ℚ) : WithTop ℚ) (plScan_skip_all sq (v :: rest) _ _ hout)

/-- Witness for C6 at the degenerate ring `[(0,0), (10,0), (0,0)]` with
precision 3: no grid point is inside, and the result is the bounding-box
midpoint `(5, 0)` with distance 0. -/
theorem polylabel_fallback_midpoint_witness :
    (thinRing.dropLast ≠ [] ∧ (0 : ℚ) < 3 ∧
      (∀ p ∈ polylabelGrid thinRing 3,
        point_in_polygon p.1 p.2 thinRing ≠ some true)) ∧
    polylabel sqId thinRing 3 = some (plMid thinRing, ((0 : ℚ) : WithTop ℚ)) := by
  have h1 : thinRing.dropLast ≠ [] := by with_unfolding_all decide
  have h2 : (0 : ℚ) < 3 := by norm_num
  have h3 : ∀ p ∈ polylabelGrid thinRing 3,
      point_in_polygon p.1 p.2 thinRing ≠ some true := by
    with_unfolding_all decide
  exact ⟨⟨h1, h2, h3⟩,
    polylabel_fallback_midpoint sqId ((0 : ℚ), (0 : ℚ)) [(10, 0), (0, 0)] 3 h1 h2 h3⟩

theorem plScan_from (sq : ℚ → ℚ) (vs : List Point) (l : List Point) :
    ∀ (p0 : Point) (d0 : WithTop ℚ),
      ∃ p d, l.foldl (plStepP sq vs) (some p0, d0) = (some p, d) ∧ d0 ≤ d ∧
        (∀ q ∈ l, point_in_polygon q.1 q.2 vs = some true →
          distVal sq q.1 q.2 vs ≤ d) ∧
        ((p = p0 ∧ d = d0) ∨
          ∃ l1 l2, l = l1 ++ p :: l2 ∧ point_in_polygon p.1 p.2 vs = some true ∧
            d = distVal sq p.1 p.2 vs ∧ d0 < d ∧
            ∀ q ∈ l1, point_in_polygon q.1 q.2 vs = some true →
              distVal sq q.1 q.2 vs < d) := by
  induction l with
  | nil =>
    intro p0 d0
    exact ⟨p0, d0, rfl, le_refl d0, by simp, Or.inl ⟨rfl, rfl⟩⟩
  | cons q t ih =>
    intro p0 d0
    by_cases hq : point_in_polygon q.1 q.2 vs = some true
    · by_cases hlt : d0 < distVal sq q.1 q.2 vs
      · obtain ⟨p, d, hfold, hled, hall, hdisj⟩ := ih q (distVal sq q.1 q.2 vs)
        have hstep : plStepP sq vs (some p0, d0) q =
            (some q, distVal sq q.1 q.2 vs) := by
          unfold plStepP
          rw [if_pos hq, if_pos hlt]
        refine ⟨p, d, ?_, le_of_lt (lt_of_lt_of_le hlt hled), ?_, ?_⟩
        · rw [List.foldl_cons, hstep]; exact hfold
        · intro w hw hinw
          rcases List.mem_cons.mp hw with h | h
          · subst h; exact hled
          · exact hall w h hinw
        · right
          rcases hdisj with ⟨hpq, hd⟩ | ⟨l1, l2, hdec, hin, hd, hlt2, hstrict⟩
          · refine ⟨[], t, ?_, ?_, ?_, ?_, by simp⟩
            · rw [hpq]; rfl
            · rw [hpq]; exact hq
            · rw [hpq]; exact hd
            · rw [hd]; exact hlt
          · refine ⟨q :: l1, l2, ?_, hin, hd, lt_trans hlt hlt2, ?_⟩
            · rw [hdec]; rfl
            · intro w hw hinw
              rcases List.mem_cons.mp hw with h | h
              · subst h; exact hlt2
              · exact hstrict w h hinw
      · have hle : distVal sq q.1 q.2 vs ≤ d0 := not_lt.mp hlt
        obtain ⟨p, d, hfold, hled, hall, hdisj⟩ := ih p0 d0
        have hstep : plStepP sq vs (some p0, d0) q = (some p0, d0) := by
          unfold plStepP
          rw [if_pos hq, if_neg hlt]
        refine ⟨p, d, ?_, hled, ?_, ?_⟩
        · rw [List.foldl_cons, hstep]; exact hfold
        · intro w hw hinw
          rcases List.mem_cons.mp hw with h | h
          · subst h; exact le_trans hle hled
          · exact hall w h hinw
        · rcases hdisj with hl | ⟨l1, l2, hdec, hin, hd, hlt2, hstrict⟩
          · exact Or.inl hl
          · refine Or.inr ⟨q :: l1, l2, ?_, hin, hd, hlt2, ?_⟩
            · rw [hdec]; rfl
            · intro w hw hinw
              rcases List.mem_cons.mp hw with h | h
              · subst h; exact lt_of_le_of_lt hle hlt2
              · exact hstrict w h hinw
    · obtain ⟨p, d, hfold, hled, hall, hdisj⟩ := ih p0 d0
      have hstep : plStepP sq vs (some p0, d0) q = (some p0, d0) := by
        unfold plStepP
        rw [if_neg hq]
      refine ⟨p, d, ?_, hled, ?_, ?_⟩
      · rw [List.foldl_cons, hstep]; exact hfold
      · intro w hw hinw
        rcases List.mem_cons.mp hw with h | h
        · subst h; exact absurd hinw hq
        · exact hall w h hinw
      · rcases hdisj with hl | ⟨l1, l2, hdec, hin, hd, hlt2, hstrict⟩
        · exact Or.inl hl
        · refine Or.inr ⟨q :: l1, l2, ?_, hin, hd, hlt2, ?_⟩
          · rw [hdec]; rfl
          · intro w hw hinw
            rcases List.mem_cons.mp hw with h | h
            · subst h; exact absurd hinw hq
            · exact hstrict w h hinw

theorem plScan_top (sq : ℚ → ℚ) (vs : List Point)
    (hd0 : ∀ p : Point, (0 : WithTop ℚ) ≤ distVal sq p.1 p.2 vs) (l : List Point) :
    (∃ p ∈ l, point_in_polygon p.1 p.2 vs = some true) →
    ∃ l1 p l2, l = l1 ++ p :: l2 ∧ point_in_polygon p.1 p.2 vs = some true ∧
      (∀ q ∈ l1, point_in_polygon q.1 q.2 vs = some true →
        distVal sq q.1 q.2 vs < distVal sq p.1 p.2 vs) ∧
      (∀ q ∈ l, point_in_polygon q.1 q.2 vs = some true →
        distVal sq q.1 q.2 vs ≤ distVal sq p.1 p.2 vs) ∧
      l.foldl (plStepP sq vs) (none, ((-1 : ℚ) : WithTop ℚ)) =
        (some p, distVal sq p.1 p.2 vs) := by
  induction l with
  | nil =>
    rintro ⟨p, hp, _⟩
    exact absurd hp (List.not_mem_nil p)
  | cons q t ih =>
    intro hex
    by_cases hq : point_in_polygon q.1 q.2 vs = some true
    · have hm1 : ((-1 : ℚ) : WithTop ℚ) < distVal sq q.1 q.2 vs := by
        refine lt_of_lt_of_le ?_ (hd0 q)
        exact_mod_cast (by norm_num : (-1 : ℚ) < 0)
      have hstep : plStepP sq vs (none, ((-1 : ℚ) : WithTop ℚ)) q =
          (some q, distVal sq q.1 q.2 vs) := by
        unfold plStepP
        rw [if_pos hq, if_pos hm1]
      obtain ⟨p, d, hfold, hled, hall, hdisj⟩ :=
        plScan_from sq vs t q (distVal sq q.1 q.2 vs)
      rcases hdisj with ⟨hpq, hd⟩ | ⟨l1, l2, hdec, hin, hd, hlt2, hstrict⟩
      · refine ⟨[], q, t, rfl, hq, by simp, ?_, ?_⟩
        · intro w hw hinw
          rcases List.mem_cons.mp hw with h | h
          · subst h; exact le_refl _
          · exact le_trans (hall w h hinw) (le_of_eq hd)
        · rw [List.foldl_cons, hstep, hfold, hpq, hd]
      · refine ⟨q :: l1, p, l2, ?_, hin, ?_, ?_, ?_⟩
        · rw [hdec]; rfl
        · intro w hw hinw
          rcases List.mem_cons.mp hw with h | h
          · subst h; rw [← hd]; exact hlt2
          · rw [← hd]; exact hstrict w h hinw
        · intro w hw hinw
          rcases List.mem_cons.mp hw with h | h
          · subst h; rw [← hd]; exact le_of_lt hlt2
          · rw [← hd]; exact hall w h hinw
        · rw [List.foldl_cons, hstep, hfold, hd]
    · have hstep : plStepP sq vs (none, ((-1 : ℚ) : WithTop ℚ)) q =
          (none, ((-1 : ℚ) : WithTop ℚ)) := by
        unfold plStepP
        rw [if_neg hq]
      obtain ⟨p0, hp0mem, hp0⟩ := hex
      have hp0t : p0 ∈ t := by
        rcases List.mem_cons.mp hp0mem with h | h
        · rw [h] at hp0; exact absurd hp0 hq
        · exact h
      obtain ⟨l1, p, l2, hdec, hin, hstrict, hall, hfold⟩ := ih ⟨p0, hp0t, hp0⟩
      refine ⟨q :: l1, p, l2, ?_, hin, ?_, ?_, ?_⟩
      · rw [hdec]; rfl
      · intro w hw hinw
        rcases List.mem_cons.mp hw with h | h
        · rw [h] at hinw; exact absurd hinw hq
        · exact hstrict w h hinw
      · intro w hw hinw
        rcases List.mem_cons.mp hw with h | h
        · rw [h] at hinw; exact absurd hinw hq
        · exact hall w h hinw
      · rw [List.foldl_cons, hstep, hfold]

/-- Claim C7: when at least one sampled grid point lies inside the polygon,
`polylabel` returns an inside grid point paired with its boundary distance;
that distance is nonnegative and maximal over all inside grid points, and
the returned point is the first maximizer in row-major scan order (the
comparison is strict `>`, so earlier inside points have strictly smaller
distance). -/
theorem polylabel_grid_maximum (sq : ℚ → ℚ) (v : Point) (rest : List Point)
    (precision : ℚ) (hbase : (v :: rest).dropLast ≠ []) (hp : 0 < precision)
    (hsq : ∀ q : ℚ, 0 ≤ q → 0 ≤ sq q)
    (hex : ∃ p ∈ polylabelGrid (v :: rest) precision,
      point_in_polygon p.1 p.2 (v :: rest) = some true) :
    ∃ l1 p l2,
      polylabelGrid (v :: rest) precision = l1 ++ p :: l2 ∧
      point_in_polygon p.1 p.2 (v :: rest) = some true ∧
      polylabel sq (v :: rest) precision =
        some (p, distVal sq p.1 p.2 (v :: rest)) ∧
      point_to_polygon_distance sq p.1 p.2 (v :: rest) =
        some (distVal sq p.1 p.2 (v :: rest)) ∧
      (0 : WithTop ℚ) ≤ distVal sq p.1 p.2 (v :: rest) ∧
      (∀ q ∈ polylabelGrid (v :: rest) precision,
        point_in_polygon q.1 q.2 (v :: rest) = some true →
        distVal sq q.1 q.2 (v :: rest) ≤ distVal sq p.1 p.2 (v :: rest)) ∧
      (∀ q ∈ l1, point_in_polygon q.1 q.2 (v :: rest) = some true →
        distVal sq q.1 q.2 (v :: rest) < distVal sq p.1 p.2 (v :: rest)) := by
  have hcell : 0 < plCell (v :: rest) precision :=
    lt_of_lt_of_le hp (le_max_right _ _)
  have hd0 : ∀ p : Point, (0 : WithTop ℚ) ≤ distVal sq p.1 p.2 (v :: rest) :=
    fun p => distVal_nonneg sq hsq p.1 p.2 (v :: rest)
  obtain ⟨l1, p, l2, hdec, hin, hstrict, hall, hfold⟩ :=
    plScan_top sq (v :: rest) hd0 (polylabelGrid (v :: rest) precision) hex
  refine ⟨l1, p, l2, hdec, hin, ?_,
    point_to_polygon_distance_eq sq p.1 p.2 (v :: rest), hd0 p, hall, hstrict⟩
  exact polylabel_eq_of_fold sq v rest precision hbase hcell (some p)
    (distVal sq p.1 p.2 (v :: rest)) hfold

/-- Witness for C7 on the square ring with precision 5 (`sq` instantiated by
the identity, for which the nonnegativity hypothesis holds trivially). -/
theorem polylabel_grid_maximum_witness :
    (squareRing.dropLast ≠ [] ∧ (0 : ℚ) < 5 ∧
      (∀ q : ℚ, 0 ≤ q → 0 ≤ sqId q) ∧
      (∃ p ∈ polylabelGrid squareRing 5,
        point_in_polygon p.1 p.2 squareRing = some true)) ∧
    (∃ l1 p l2,
      polylabelGrid squareRing 5 = l1 ++ p :: l2 ∧
      point_in_polygon p.1 p.2 squareRing = some true ∧
      polylabel sqId squareRing 5 = some (p, distVal sqId p.1 p.2 squareRing) ∧
      point_to_polygon_distance sqId p.1 p.2 squareRing =
        some (distVal sqId p.1 p.2 squareRing) ∧
      (0 : WithTop ℚ) ≤ distVal sqId p.1 p.2 squareRing ∧
      (∀ q ∈ polylabelGrid squareRing 5,
        point_in_polygon q.1 q.2 squareRing = some true →
        distVal sqId q.1 q.2 squareRing ≤ distVal sqId p.1 p.2 squareRing) ∧
      (∀ q ∈ l1, point_in_polygon q.1 q.2 squareRing = some true →
        distVal sqId q.1 q.2 squareRing < distVal sqId p.1 p.2 squareRing)) := by
  have h1 : squareRing.dropLast ≠ [] := by with_unfolding_all decide
  have h2 : (0 : ℚ) < 5 := by norm_num
  have h3 : ∀ q : ℚ, 0 ≤ q → 0 ≤ sqId q := fun q hq => hq
  have h4 : ∃ p ∈ polylabelGrid squareRing 5,
      point_in_polygon p.1 p.2 squareRing = some true := by
    with_unfolding_all decide
  exact ⟨⟨h1, h2, h3, h4⟩,
    polylabel_grid_maximum sqId ((0 : ℚ), (0 : ℚ))
      [(10, 0), (10, 10), (0, 10), (0, 0)] 5 h1 h2 h3 h4⟩

theorem polylabel_isSome (sq : ℚ → ℚ) (precision : ℚ) (v w : Point)
    (rest : List Point) (hp : 0 < precision) :
    (polylabel sq (v :: w :: rest) precision).isSome = true := by
  have hbase : (v :: w :: rest).dropLast ≠ [] := by simp
  have hcell : 0 < plCell (v :: w :: rest) precision :=
    lt_of_lt_of_le hp (le_max_right _ _)
  rcases hsc : (polylabelGrid (v :: w :: rest) precision).foldl
      (plStepP sq (v :: w :: rest)) (none, ((-1 : ℚ) : WithTop ℚ)) with ⟨bp, d⟩
  rw [polylabel_eq_of_fold sq v (w :: rest) precision hbase hcell bp d hsc]
  cases bp <;> rfl

/-- Claim C2 counterexample: on a single-vertex list (malformed input with
fewer than 3 vertices) `polylabel` raises — `min()` is applied to the empty
sequence `vertices[:-1]` — instead of returning a numeric result. -/
theorem polylabel_single_vertex_raises :
    polylabel sqId [((0 : ℚ), (0 : ℚ))] (1 / 100) = none := by
  with_unfolding_all decide

/-- Claim C2 (amended): for inputs with at least two vertices and a positive
precision, none of the five core functions raises an exception — each
returns a value.  (With zero or one vertices, `point_in_polygon` and
`polygon_centroid` raise `IndexError` on the empty list and `polylabel` and
`find_interior_point` raise `ValueError` on a single vertex.) -/
theorem no_exception_two_vertices (sq : ℚ → ℚ) (x y precision : ℚ)
    (v w : Point) (rest : List Point) (hp : 0 < precision) :
    (point_in_polygon x y (v :: w :: rest)).isSome = true ∧
    (point_to_polygon_distance sq x y (v :: w :: rest)).isSome = true ∧
    (polygon_centroid (v :: w :: rest)).isSome = true ∧
    (polylabel sq (v :: w :: rest) precision).isSome = true ∧
    (find_interior_point sq (v :: w :: rest) precision).isSome = true := by
  refine ⟨?_, ?_, polygon_centroid_isSome v (w :: rest),
    polylabel_isSome sq precision v w rest hp, ?_⟩
  · rw [point_in_polygon_eq]; rfl
  · rw [point_to_polygon_distance_eq]; rfl
  · obtain ⟨c, hc⟩ :=
      Option.isSome_iff_exists.mp (polygon_centroid_isSome v (w :: rest))
    unfold find_interior_point
    cases hb : pipVal c.1 c.2 (v :: w :: rest) with
    | true => simp [hc, point_in_polygon_eq, hb]
    | false =>
      obtain ⟨pd, hpl⟩ :=
        Option.isSome_iff_exists.mp (polylabel_isSome sq precision v w rest hp)
      obtain ⟨pp, dd⟩ := pd
      simp [hc, point_in_polygon_eq, hb, hpl]

/-- Witness for C2 (amended) at a concrete two-vertex input. -/
theorem no_exception_two_vertices_witness :
    (0 : ℚ) < 1 ∧
    ((point_in_polygon 1 2 [((0 : ℚ), (0 : ℚ)), (3, 0)]).isSome = true ∧
     (point_to_polygon_distance sqId 1 2 [((0 : ℚ), (0 : ℚ)), (3, 0)]).isSome = true ∧
     (polygon_centroid [((0 : ℚ), (0 : ℚ)), (3, 0)]).isSome = true ∧
     (polylabel sqId [((0 : ℚ), (0 : ℚ)), (3, 0)] 1).isSome = true ∧
     (find_interior_point sqId [((0 : ℚ), (0 : ℚ)), (3, 0)] 1).isSome = true) :=
  ⟨by norm_num,
   no_exception_two_vertices sqId 1 2 1 ((0 : ℚ), (0 : ℚ)) ((3 : ℚ), (0 : ℚ)) []
     (by norm_num)⟩

/-- Claim C4: `find_interior_point` returns the centroid tagged `"centroid"`
iff the centroid passes `point_in_polygon`; otherwise it returns the point
component of `polylabel` tagged `"polylabel"`. -/
theorem find_interior_point_strategy (sq : ℚ → ℚ) (precision : ℚ)
    (v w : Point) (rest : List Point) (hp : 0 < precision)
    (hclosed : (v :: w :: rest).getLast? = some v) :
    ∃ c b, polygon_centroid (v :: w :: rest) = some c ∧
      point_in_polygon c.1 c.2 (v :: w :: rest) = some b ∧
      (find_interior_point sq (v :: w :: rest) precision = some (c, "centroid")
        ↔ b = true) ∧
      (b = false →
        ∃ p d, polylabel sq (v :: w :: rest) precision = some (p, d) ∧
          find_interior_point sq (v :: w :: rest) precision =
            some (p, "polylabel")) := by
  obtain ⟨c, hc⟩ :=
    Option.isSome_iff_exists.mp (polygon_centroid_isSome v (w :: rest))
  refine ⟨c, pipVal c.1 c.2 (v :: w :: rest), hc,
    point_in_polygon_eq c.1 c.2 v (w :: rest), ?_, ?_⟩
  · cases hb : pipVal c.1 c.2 (v :: w :: rest) with
    | true =>
      have hfip : find_interior_point sq (v :: w :: rest) precision =
          some (c, "centroid") := by
        unfold find_interior_point
        simp [hc, point_in_polygon_eq, hb]
      simp [hfip]
    | false =>
      obtain ⟨pd, hpl⟩ :=
        Option.isSome_iff_exists.mp (polylabel_isSome sq precision v w rest hp)
      obtain ⟨pp, dd⟩ := pd
      have hfip : find_interior_point sq (v :: w :: rest) precision =
          some (pp, "polylabel") := by
        unfold find_interior_point
        simp [hc, point_in_polygon_eq, hb, hpl]
      rw [hfip]
      constructor
      · intro h
        have h1 : (pp, ("polylabel" : String)) = (c, "centroid") :=
          Option.some.inj h
        have h2 : ("polylabel" : String) = "centroid" := congrArg Prod.snd h1
        exact absurd h2 (by decide)
      · intro h
        exact Bool.noConfusion h
  · intro hb
    obtain ⟨pd, hpl⟩ :=
      Option.isSome_iff_exists.mp (polylabel_isSome sq precision v w rest hp)
    obtain ⟨pp, dd⟩ := pd
    refine ⟨pp, dd, hpl, ?_⟩
    unfold find_interior_point
    simp [hc, point_in_polygon_eq, hb, hpl]

/-- Witness for C4 on the square ring. -/
theorem find_interior_point_strategy_witness :
    ((0 : ℚ) < 5 ∧ squareRing.getLast? = some ((0 : ℚ), (0 : ℚ))) ∧
    (∃ c b, polygon_centroid squareRing = some c ∧
      point_in_polygon c.1 c.2 squareRing = some b ∧
      (find_interior_point sqId squareRing 5 = some (c, "centroid") ↔ b = true) ∧
      (b = false →
        ∃ p d, polylabel sqId squareRing 5 = some (p, d) ∧
          find_interior_point sqId squareRing 5 = some (p, "polylabel"))) :=
  ⟨⟨by norm_num, by with_unfolding_all decide⟩,
   find_interior_point_strategy sqId 5 ((0 : ℚ), (0 : ℚ)) ((10 : ℚ), (0 : ℚ))
     [(10, 10), (0, 10), (0, 0)] (by norm_num) (by with_unfolding_all decide)⟩

/-- Claim C3: on the closed square ring `[(0,0),(10,0),(10,10),(0,10),(0,0)]`,
`point_in_polygon(5,5)` is `True`, `point_in_polygon(15,5)` is `False`,
`point_to_polygon_distance(5,5)` is `5.0` (each edge is at squared distance
25, and `sqrt 25 = 5`), and `polygon_centroid` is `(5.0, 5.0)`. -/
theorem square_ring_example (sq : ℚ → ℚ) (hsq : sq 25 = 5) :
    point_in_polygon 5 5 squareRing = some true ∧
    point_in_polygon 15 5 squareRing = some false ∧
    point_to_polygon_distance sq 5 5 squareRing = some ((5 : ℚ) : WithTop ℚ) ∧
    polygon_centroid squareRing = some (5, 5) := by
  refine ⟨by with_unfolding_all decide, by with_unfolding_all decide, ?_,
    by with_unfolding_all decide⟩
  rw [point_to_polygon_distance_eq]
  have h1 : segD sq 5 5 (((0 : ℚ), (0 : ℚ)), ((10 : ℚ), (0 : ℚ))) = sq 25 := by
    unfold segD
    norm_num [min_def, max_def]
  have h2 : segD sq 5 5 (((10 : ℚ), (0 : ℚ)), ((10 : ℚ), (10 : ℚ))) = sq 25 := by
    unfold segD
    norm_num [min_def, max_def]
  have h3 : segD sq 5 5 (((10 : ℚ), (10 : ℚ)), ((0 : ℚ), (10 : ℚ))) = sq 25 := by
    unfold segD
    norm_num [min_def, max_def]
  have h4 : segD sq 5 5 (((0 : ℚ), (10 : ℚ)), ((0 : ℚ), (0 : ℚ))) = sq 25 := by
    unfold segD
    norm_num [min_def, max_def]
  have hz : squareRing.zip squareRing.tail =
      [(((0 : ℚ), (0 : ℚ)), ((10 : ℚ), (0 : ℚ))),
       (((10 : ℚ), (0 : ℚ)), ((10 : ℚ), (10 : ℚ))),
       (((10 : ℚ), (10 : ℚ)), ((0 : ℚ), (10 : ℚ))),
       (((0 : ℚ), (10 : ℚ)), ((0 : ℚ), (0 : ℚ)))] := rfl
  unfold distVal
  rw [hz]
  simp only [List.foldl_cons, List.foldl_nil]
  rw [h1, h2, h3, h4, hsq]
  rw [min_eq_right le_top, min_self, min_self, min_self]

/-- Witness for C3 with a concrete square-root stand-in satisfying
`sq 25 = 5`. -/
theorem square_ring_example_witness :
    sqW 25 = 5 ∧
    (point_in_polygon 5 5 squareRing = some true ∧
     point_in_polygon 15 5 squareRing = some false ∧
     point_to_polygon_distance sqW 5 5 squareRing = some ((5 : ℚ) : WithTop ℚ) ∧
     polygon_centroid squareRing = some (5, 5)) :=
  ⟨by norm_num [sqW], square_ring_example sqW (by norm_num [sqW])⟩

theorem orient_rev (a b p : Point) : orient b a p = -orient a b p := by
  unfold orient; ring

theorem orient_comb (p q a b : Point) (t : ℚ) :
    orient p q ((1 - t) * a.1 + t * b.1, (1 - t) * a.2 + t * b.2) =
      (1 - t) * orient p q a + t * orient p q b := by
  unfold orient; ring

theorem orient_collinear3 (a b p q r : Point) (hd : b.2 - a.2 ≠ 0)
    (hp : orient a b p = 0) (hq : orient a b q = 0) (hr : orient a b r = 0) :
    orient p q r = 0 := by
  have key : (b.2 - a.2) ^ 2 * orient p q r = 0 := by
    unfold orient at hp hq hr ⊢
    linear_combination ((b.2 - a.2) * (r.2 - p.2) - (b.2 - a.2) * (q.2 - p.2)) * hp -
      (b.2 - a.2) * (r.2 - p.2) * hq + (b.2 - a.2) * (q.2 - p.2) * hr
  rcases mul_eq_zero.mp key with h | h
  · exact absurd h (pow_ne_zero 2 hd)
  · exact h

theorem orient_at_height (a b : Point) (u y : ℚ) (hd : b.2 - a.2 ≠ 0) :
    orient a b (u, y) = (b.2 - a.2) * (xinterOf y (a, b) - u) := by
  unfold orient xinterOf
  field_simp
  ring

theorem xinter_comb (a b : Point) (y : ℚ) (hd : b.2 - a.2 ≠ 0) :
    ((xinterOf y (a, b), y) : Point) =
      ((1 - (y - a.2) / (b.2 - a.2)) * a.1 + ((y - a.2) / (b.2 - a.2)) * b.1,
       (1 - (y - a.2) / (b.2 - a.2)) * a.2 + ((y - a.2) / (b.2 - a.2)) * b.2) := by
  rw [Prod.mk.injEq]
  constructor
  · unfold xinterOf
    field_simp
    ring
  · field_simp
    ring

theorem orient_combW (p q a b : Point) (y : ℚ) (hd : b.2 - a.2 ≠ 0) :
    orient p q ((xinterOf y (a, b), y) : Point) =
      (1 - (y - a.2) / (b.2 - a.2)) * orient p q a +
        ((y - a.2) / (b.2 - a.2)) * orient p q b := by
  rw [xinter_comb a b y hd, orient_comb]

theorem orient_inner (a b zp : Point) (t : ℚ) :
    orient zp ((a.1 + t * (b.1 - a.1), a.2 + t * (b.2 - a.2)) : Point) a =
      -(t * orient a b zp) := by
  unfold orient; ring

theorem orient_map_sum (a b : Point) (l : List Point) :
    (l.map (fun p => orient a b p)).sum =
      (b.1 - a.1) * ((l.map Prod.snd).sum - (l.length : ℚ) * a.2) -
      (b.2 - a.2) * ((l.map Prod.fst).sum - (l.length : ℚ) * a.1) := by
  induction l with
  | nil => simp
  | cons u t ih =>
    simp only [List.map_cons, List.sum_cons, List.length_cons, ih]
    unfold orient
    push_cast
    ring

theorem orient_centroid (a b : Point) (l : List Point) (hne : l ≠ []) :
    orient a b (centroidPt l) =
      (l.map (fun p => orient a b p)).sum / (l.length : ℚ) := by
  have hn : (l.length : ℚ) ≠ 0 := by
    exact_mod_cast Nat.pos_iff_ne_zero.mp (List.length_pos.mpr hne)
  rw [orient_map_sum]
  unfold centroidPt orient
  field_simp

theorem cycleEdges_eq_zip_rotate (l : List Point) :
    cycleEdges l = l.zip (l.rotate 1) := by
  cases l with
  | nil => rfl
  | cons v t =>
    show (v :: t).zip (t ++ [v]) = (v :: t).zip ((v :: t).rotate 1)
    rw [List.rotate_cons_succ, List.rotate_zero]

theorem cycleEdges_mem (l : List Point) (e : Point × Point)
    (he : e ∈ cycleEdges l) : e.1 ∈ l ∧ e.2 ∈ l := by
  rw [cycleEdges_eq_zip_rotate] at he
  obtain ⟨e1, e2⟩ := e
  obtain ⟨h1, h2⟩ := List.of_mem_zip he
  exact ⟨h1, List.mem_rotate.mp h2⟩

theorem cycleEdges_pred (l : List Point) (a : Point) (ha : a ∈ l) :
    ∃ g ∈ cycleEdges l, g.2 = a := by
  have h2 : a ∈ (cycleEdges l).map Prod.snd := by
    rw [cycleEdges_eq_zip_rotate,
      List.map_snd_zip _ _ (le_of_eq (List.length_rotate l 1))]
    exact List.mem_rotate.mpr ha
  obtain ⟨g, hg, hga⟩ := List.mem_map.mp h2
  exact ⟨g, hg, hga⟩

theorem zip_fst_inj (A B : List Point) (hA : A.Nodup)
    (e e' : Point × Point) (he : e ∈ A.zip B) (he' : e' ∈ A.zip B)
    (h1 : e.1 = e'.1) : e = e' := by
  obtain ⟨k, hk, hek⟩ := List.mem_iff_getElem.mp he
  obtain ⟨j, hj, hej⟩ := List.mem_iff_getElem.mp he'
  have hkA : k < A.length := by
    rw [List.length_zip] at hk; omega
  have hjA : j < A.length := by
    rw [List.length_zip] at hj; omega
  have hkB : k < B.length := by
    rw [List.length_zip] at hk; omega
  have hjB : j < B.length := by
    rw [List.length_zip] at hj; omega
  rw [List.getElem_zip] at hek hej
  have hAkj : A[k] = A[j] := by
    have e1k : e.1 = A[k] := by rw [← hek]
    have e1j : e'.1 = A[j] := by rw [← hej]
    rw [← e1k, ← e1j, h1]
  have hkj : k = j := (hA.getElem_inj_iff).mp hAkj
  subst hkj
  rw [← hek, ← hej]

theorem zip_snd_inj (A B : List Point) (hB : B.Nodup)
    (e e' : Point × Point) (he : e ∈ A.zip B) (he' : e' ∈ A.zip B)
    (h2 : e.2 = e'.2) : e = e' := by
  obtain ⟨k, hk, hek⟩ := List.mem_iff_getElem.mp he
  obtain ⟨j, hj, hej⟩ := List.mem_iff_getElem.mp he'
  have hkA : k < A.length := by
    rw [List.length_zip] at hk; omega
  have hjA : j < A.length := by
    rw [List.length_zip] at hj; omega
  have hkB : k < B.length := by
    rw [List.length_zip] at hk; omega
  have hjB : j < B.length := by
    rw [List.length_zip] at hj; omega
  rw [List.getElem_zip] at hek hej
  have hBkj : B[k] = B[j] := by
    have e2k : e.2 = B[k] := by rw [← hek]
    have e2j : e'.2 = B[j] := by rw [← hej]
    rw [← e2k, ← e2j, h2]
  have hkj : k = j := (hB.getElem_inj_iff).mp hBkj
  subst hkj
  rw [← hek, ← hej]

theorem cycleEdges_fst_inj (l : List Point) (hnd : l.Nodup)
    (e e' : Point × Point) (he : e ∈ cycleEdges l) (he' : e' ∈ cycleEdges l)
    (h1 : e.1 = e'.1) : e = e' := by
  rw [cycleEdges_eq_zip_rotate] at he he'
  exact zip_fst_inj l (l.rotate 1) hnd e e' he he' h1

theorem cycleEdges_snd_inj (l : List Point) (hnd : l.Nodup)
    (e e' : Point × Point) (he : e ∈ cycleEdges l) (he' : e' ∈ cycleEdges l)
    (h2 : e.2 = e'.2) : e = e' := by
  rw [cycleEdges_eq_zip_rotate] at he he'
  exact zip_snd_inj l (l.rotate 1) (List.nodup_rotate.mpr hnd) e e' he he' h2

theorem cycleTriples_length (l : List Point) :
    (cycleTriples l).length = l.length := by
  unfold cycleTriples
  rw [List.length_zip, List.length_zip, List.length_rotate, List.length_rotate]
  omega

theorem cycleTriples_mem (l : List Point) (tr : Point × Point × Point)
    (htr : tr ∈ cycleTriples l) : tr.1 ∈ l ∧ tr.2.1 ∈ l ∧ tr.2.2 ∈ l := by
  unfold cycleTriples at htr
  obtain ⟨a, b, c⟩ := tr
  obtain ⟨h1, h2⟩ := List.of_mem_zip htr
  obtain ⟨h21, h22⟩ := List.of_mem_zip h2
  exact ⟨h1, List.mem_rotate.mp h21, List.mem_rotate.mp h22⟩

theorem cycleTriples_exists (l : List Point) (h0 : 0 < l.length) :
    ∃ tr, tr ∈ cycleTriples l := by
  have hlen : 0 < (cycleTriples l).length := by
    rw [cycleTriples_length]; exact h0
  exact ⟨(cycleTriples l)[0], List.getElem_mem hlen⟩

theorem cycleTriples_of_adj (l : List Point) (hnd : l.Nodup)
    (g e : Point × Point) (hg : g ∈ cycleEdges l) (he : e ∈ cycleEdges l)
    (hadj : g.2 = e.1) : (g.1, (e.1, e.2)) ∈ cycleTriples l := by
  rw [cycleEdges_eq_zip_rotate] at hg he
  obtain ⟨k, hk, hgk⟩ := List.mem_iff_getElem.mp hg
  obtain ⟨j, hj, hej⟩ := List.mem_iff_getElem.mp he
  have hkl : k < l.length := by
    rw [List.length_zip, List.length_rotate] at hk; omega
  have hjl : j < l.length := by
    rw [List.length_zip, List.length_rotate] at hj; omega
  have h0 : 0 < l.length := by omega
  have hkr : k < (l.rotate 1).length := by rw [List.length_rotate]; exact hkl
  have hjr : j < (l.rotate 1).length := by rw [List.length_rotate]; exact hjl
  have hkr2 : k < (l.rotate 2).length := by rw [List.length_rotate]; exact hkl
  rw [List.getElem_zip] at hgk hej
  have hmod1 : (k + 1) % l.length < l.length := Nat.mod_lt _ h0
  have hmod2 : (k + 2) % l.length < l.length := Nat.mod_lt _ h0
  have hmodj : (j + 1) % l.length < l.length := Nat.mod_lt _ h0
  -- identify indices: e.1 = l[j] and e.1 = g.2 = (l.rotate 1)[k] = l[(k+1) % n]
  have hr1k : (l.rotate 1)[k] = l[(k + 1) % l.length] := List.getElem_rotate l 1 k hkr
  have hr1j : (l.rotate 1)[j] = l[(j + 1) % l.length] := List.getElem_rotate l 1 j hjr
  have hr2k : (l.rotate 2)[k] = l[(k + 2) % l.length] := List.getElem_rotate l 2 k hkr2
  have he1 : e.1 = l[j] := by rw [← hej]
  have hg2 : g.2 = l[(k + 1) % l.length] := by rw [← hgk]; exact hr1k
  have hjk : j = (k + 1) % l.length := by
    have : l[j] = l[(k + 1) % l.length] := by rw [← he1, ← hadj, hg2]
    exact (hnd.getElem_inj_iff).mp this
  have he2 : e.2 = l[(k + 2) % l.length] := by
    have h1 : e.2 = (l.rotate 1)[j] := by rw [← hej]
    have hidx : (j + 1) % l.length = (k + 2) % l.length := by
      rw [hjk]; exact Nat.mod_add_mod (k + 1) l.length 1
    rw [h1, hr1j]
    simp only [hidx]
  -- now produce the membership at index k
  rw [List.mem_iff_getElem]
  refine ⟨k, by rw [cycleTriples_length]; exact hkl, ?_⟩
  have hkzz : k < (l.zip ((l.rotate 1).zip (l.rotate 2))).length := by
    rw [List.length_zip, List.length_zip, List.length_rotate, List.length_rotate]
    omega
  show (l.zip ((l.rotate 1).zip (l.rotate 2)))[k] = (g.1, (e.1, e.2))
  rw [List.getElem_zip, List.getElem_zip]
  have hg1 : g.1 = l[k] := by rw [← hgk]
  rw [hg1, ← hadj, hg2, hr1k, hr2k, he2]

theorem cycleTriples_of_edge (l : List Point) (e : Point × Point)
    (he : e ∈ cycleEdges l) :
    ∃ w ∈ l, (e.1, (e.2, w)) ∈ cycleTriples l := by
  rw [cycleEdges_eq_zip_rotate] at he
  obtain ⟨k, hk, hek⟩ := List.mem_iff_getElem.mp he
  have hkl : k < l.length := by
    rw [List.length_zip, List.length_rotate] at hk; omega
  have h0 : 0 < l.length := by omega
  have hkr : k < (l.rotate 1).length := by rw [List.length_rotate]; exact hkl
  have hkr2 : k < (l.rotate 2).length := by rw [List.length_rotate]; exact hkl
  rw [List.getElem_zip] at hek
  have hmod2 : (k + 2) % l.length < l.length := Nat.mod_lt _ h0
  refine ⟨l[(k + 2) % l.length], List.getElem_mem hmod2, ?_⟩
  rw [List.mem_iff_getElem]
  refine ⟨k, by rw [cycleTriples_length]; exact hkl, ?_⟩
  have hkzz : k < (l.zip ((l.rotate 1).zip (l.rotate 2))).length := by
    rw [List.length_zip, List.length_zip, List.length_rotate, List.length_rotate]
    omega
  show (l.zip ((l.rotate 1).zip (l.rotate 2)))[k] = (e.1, (e.2, l[(k + 2) % l.length]))
  rw [List.getElem_zip, List.getElem_zip]
  have he1 : e.1 = l[k] := by rw [← hek]
  have he2 : e.2 = (l.rotate 1)[k] := by rw [← hek]
  rw [← he1, ← he2, List.getElem_rotate]

theorem pipStepP_fst (x y : ℚ) (st : Bool × Option ℚ) (e : Point × Point) :
    (pipStepP x y st e).1 = xor st.1 (toggleB x y e) := by
  unfold pipStepP toggleB xinterOf
  by_cases hg : y > min e.1.2 e.2.2 ∧ y ≤ max e.1.2 e.2.2 ∧ x ≤ max e.1.1 e.2.1
  · have hgd := decide_eq_true hg
    have hy : e.1.2 ≠ e.2.2 := by
      intro h
      rw [h, min_self, max_self] at hg
      exact absurd hg.2.1 (not_le.mpr hg.1)
    rw [if_pos hg, if_pos hy, hgd]
    by_cases hx : e.1.1 = e.2.1
    · have hxd := decide_eq_true hx
      rw [if_pos hx, hxd]
      simp only [Bool.true_or, Bool.true_and, Bool.xor_true]
    · have hxd : decide (e.1.1 = e.2.1) = false := decide_eq_false hx
      rw [if_neg hx, hxd]
      dsimp only
      by_cases hxi : x ≤ (y - e.1.2) * (e.2.1 - e.1.1) / (e.2.2 - e.1.2) + e.1.1
      · have hxid := decide_eq_true hxi
        rw [if_pos hxi, hxid]
        simp only [Bool.false_or, Bool.true_and, Bool.xor_true]
      · have hxid : decide (x ≤ (y - e.1.2) * (e.2.1 - e.1.1) / (e.2.2 - e.1.2) + e.1.1) = false :=
          decide_eq_false hxi
        rw [if_neg hxi, hxid]
        simp only [Bool.false_or, Bool.true_and, Bool.xor_false]
  · have hgd : decide (y > min e.1.2 e.2.2 ∧ y ≤ max e.1.2 e.2.2 ∧ x ≤ max e.1.1 e.2.1) = false :=
      decide_eq_false hg
    rw [if_neg hg, hgd]
    simp only [Bool.false_and, Bool.xor_false]

theorem foldl_pipStepP_fst (x y : ℚ) : ∀ (l : List (Point × Point))
    (st : Bool × Option ℚ),
    (l.foldl (pipStepP x y) st).1 =
      l.foldl (fun b e => xor b (toggleB x y e)) st.1 := by
  intro l
  induction l with
  | nil => intro st; rfl
  | cons e t ih =>
    intro st
    rw [List.foldl_cons, List.foldl_cons, ih, pipStepP_fst]

theorem foldl_xor_allfalse (x y : ℚ) (L : List (Point × Point)) (b : Bool)
    (hL : ∀ e ∈ L, toggleB x y e = false) :
    L.foldl (fun b e => xor b (toggleB x y e)) b = b := by
  induction L generalizing b with
  | nil => rfl
  | cons e t ih =>
    rw [List.foldl_cons, hL e (by simp)]
    rw [show xor b false = b from by simp]
    exact ih b (fun e he => hL e (by simp [he]))

theorem pipVal_of_unique_toggle (x y : ℚ) (v : Point) (rest : List Point)
    (L1 L2 : List (Point × Point)) (et : Point × Point)
    (hdec : cycleEdges (v :: rest) = L1 ++ et :: L2)
    (h1 : ∀ e ∈ L1, toggleB x y e = false)
    (ht : toggleB x y et = true)
    (h2 : ∀ e ∈ L2, toggleB x y e = false) :
    pipVal x y (v :: rest) = true := by
  unfold pipVal
  rw [foldl_pipStepP_fst, hdec, List.foldl_append, List.foldl_cons]
  rw [foldl_xor_allfalse x y L1 false h1, ht]
  rw [foldl_xor_allfalse x y L2 (xor false true) h2]
  rfl

theorem xinter_le_max (a b : Point) (y t : ℚ) (hd : b.2 - a.2 ≠ 0)
    (hteq : t = (y - a.2) / (b.2 - a.2)) (ht0 : 0 ≤ t) (ht1 : t ≤ 1) :
    xinterOf y (a, b) ≤ max a.1 b.1 := by
  have hxe : xinterOf y (a, b) = a.1 + t * (b.1 - a.1) := by
    unfold xinterOf
    dsimp only
    rw [hteq]
    field_simp
    ring
  rw [hxe]
  rcases le_total a.1 b.1 with hab | hab
  · have h1 : t * (b.1 - a.1) ≤ b.1 - a.1 := by nlinarith
    have h2 : a.1 + t * (b.1 - a.1) ≤ b.1 := by linarith
    exact le_trans h2 (le_max_right _ _)
  · have h1 : t * (b.1 - a.1) ≤ 0 := by nlinarith
    have h2 : a.1 + t * (b.1 - a.1) ≤ a.1 := by linarith
    exact le_trans h2 (le_max_left _ _)

theorem toggleB_left_iff (x y : ℚ) (a b : Point)
    (hpos : 0 < orient a b (x, y)) :
    (toggleB x y (a, b) = true ↔ upwardAt y (a, b)) := by
  unfold toggleB upwardAt
  dsimp only
  rw [Bool.and_eq_true, Bool.or_eq_true, decide_eq_true_eq, decide_eq_true_eq,
    decide_eq_true_eq]
  constructor
  · rintro ⟨⟨hg1, hg2, hg3⟩, hor⟩
    rcases lt_trichotomy a.2 b.2 with hlt | heq | hgt
    · rw [min_eq_left (le_of_lt hlt)] at hg1
      rw [max_eq_right (le_of_lt hlt)] at hg2
      exact ⟨hg1, hg2⟩
    · rw [heq, min_self] at hg1
      rw [heq, max_self] at hg2
      exact absurd hg2 (not_le.mpr hg1)
    · exfalso
      have hd : b.2 - a.2 ≠ 0 := by
        intro h
        have : a.2 = b.2 := by linarith
        exact absurd this (ne_of_gt hgt)
      have hh := orient_at_height a b x y hd
      have hxi : xinterOf y (a, b) < x := by nlinarith
      rcases hor with hver | hle
      · have hxieq : xinterOf y (a, b) = a.1 := by
          unfold xinterOf
          dsimp only
          rw [← hver]
          ring_nf
        rw [hver, max_self] at hg3
        rw [hxieq, hver] at hxi
        exact absurd hg3 (not_le.mpr hxi)
      · have : x ≤ xinterOf y (a, b) := by
          unfold xinterOf
          dsimp only
          exact hle
        exact absurd this (not_le.mpr hxi)
  · rintro ⟨hu1, hu2⟩
    have hlt : a.2 < b.2 := lt_of_lt_of_le hu1 hu2
    have hd : b.2 - a.2 ≠ 0 := ne_of_gt (sub_pos.mpr hlt)
    have hh := orient_at_height a b x y hd
    have hxi : x < xinterOf y (a, b) := by nlinarith
    have ht0 : 0 ≤ (y - a.2) / (b.2 - a.2) :=
      div_nonneg (by linarith) (by linarith)
    have ht1 : (y - a.2) / (b.2 - a.2) ≤ 1 := by
      rw [div_le_one (by linarith)]
      linarith
    have hmax := xinter_le_max a b y ((y - a.2) / (b.2 - a.2)) hd rfl ht0 ht1
    refine ⟨⟨?_, ?_, ?_⟩, Or.inr ?_⟩
    · rw [min_eq_left (le_of_lt hlt)]
      exact hu1
    · rw [max_eq_right (le_of_lt hlt)]
      exact hu2
    · exact le_trans (le_of_lt hxi) hmax
    · have : x ≤ xinterOf y (a, b) := le_of_lt hxi
      unfold xinterOf at this
      dsimp only at this
      exact this

theorem toggleB_right_iff (x y : ℚ) (a b : Point)
    (hneg : orient a b (x, y) < 0) :
    (toggleB x y (a, b) = true ↔ downwardAt y (a, b)) := by
  unfold toggleB downwardAt
  dsimp only
  rw [Bool.and_eq_true, Bool.or_eq_true, decide_eq_true_eq, decide_eq_true_eq,
    decide_eq_true_eq]
  constructor
  · rintro ⟨⟨hg1, hg2, hg3⟩, hor⟩
    rcases lt_trichotomy a.2 b.2 with hlt | heq | hgt
    · exfalso
      have hd : b.2 - a.2 ≠ 0 := ne_of_gt (sub_pos.mpr hlt)
      have hh := orient_at_height a b x y hd
      have hxi : xinterOf y (a, b) < x := by nlinarith
      rcases hor with hver | hle
      · have hxieq : xinterOf y (a, b) = a.1 := by
          unfold xinterOf
          dsimp only
          rw [← hver]
          ring_nf
        rw [hver, max_self] at hg3
        rw [hxieq, hver] at hxi
        exact absurd hg3 (not_le.mpr hxi)
      · have hx2 : x ≤ xinterOf y (a, b) := by
          unfold xinterOf
          dsimp only
          exact hle
        exact absurd hx2 (not_le.mpr hxi)
    · rw [heq, min_self] at hg1
      rw [heq, max_self] at hg2
      exact absurd hg2 (not_le.mpr hg1)
    · rw [min_eq_right (le_of_lt hgt)] at hg1
      rw [max_eq_left (le_of_lt hgt)] at hg2
      exact ⟨hg1, hg2⟩
  · rintro ⟨hd1, hd2⟩
    have hgt : b.2 < a.2 := lt_of_lt_of_le hd1 hd2
    have hdy : b.2 - a.2 < 0 := sub_neg.mpr hgt
    have hd : b.2 - a.2 ≠ 0 := ne_of_lt hdy
    have hh := orient_at_height a b x y hd
    have hxi : x < xinterOf y (a, b) := by nlinarith
    have ht0 : 0 ≤ (y - a.2) / (b.2 - a.2) := by
      rw [le_div_iff_of_neg hdy]
      simpa using (by linarith : y - a.2 ≤ 0)
    have ht1 : (y - a.2) / (b.2 - a.2) ≤ 1 := by
      by_contra hcon
      push_neg at hcon
      have hmul : (b.2 - a.2) * ((y - a.2) / (b.2 - a.2)) = y - a.2 := by
        field_simp
      nlinarith
    have hmax := xinter_le_max a b y ((y - a.2) / (b.2 - a.2)) hd rfl ht0 ht1
    refine ⟨⟨?_, ?_, ?_⟩, Or.inr ?_⟩
    · rw [min_eq_right (le_of_lt hgt)]
      exact hd1
    · rw [max_eq_left (le_of_lt hgt)]
      exact hd2
    · exact le_trans (le_of_lt hxi) hmax
    · have hx2 : x ≤ xinterOf y (a, b) := le_of_lt hxi
      unfold xinterOf at hx2
      dsimp only at hx2
      exact hx2

theorem upward_iff (y : ℚ) (a b : Point) :
    upwardAt y (a, b) ↔ (a.2 < y ∧ y ≤ b.2) := Iff.rfl

theorem downward_iff (y : ℚ) (a b : Point) :
    downwardAt y (a, b) ↔ (b.2 < y ∧ y ≤ a.2) := Iff.rfl

theorem orient_base_left (a b : Point) : orient a b a = 0 := by
  unfold orient; ring

theorem orient_base_right (a b : Point) : orient a b b = 0 := by
  unfold orient; ring

theorem ccw_upward_core (l : List Point) (hnd : l.Nodup)
    (hcc : ∀ e ∈ cycleEdges l, ∀ p ∈ l, 0 ≤ orient e.1 e.2 p)
    (hturn : ∀ tr ∈ cycleTriples l, 0 < orient tr.1 tr.2.1 tr.2.2)
    (y : ℚ) (a b a2 b2 : Point)
    (he : (a, b) ∈ cycleEdges l) (he2 : (a2, b2) ∈ cycleEdges l)
    (hu : upwardAt y (a, b)) (hu2 : upwardAt y (a2, b2))
    (hca : orient a b a2 = 0) (hcb : orient a b b2 = 0)
    (hlt : a.2 < a2.2) : False := by
  obtain ⟨hua, hub⟩ := (upward_iff y a b).mp hu
  obtain ⟨hu2a, hu2b⟩ := (upward_iff y a2 b2).mp hu2
  have hdy : 0 < b.2 - a.2 := by linarith
  have ht0 : 0 < (a2.2 - a.2) / (b.2 - a.2) := div_pos (by linarith) hdy
  have ha2y : a2.2 = a.2 + ((a2.2 - a.2) / (b.2 - a.2)) * (b.2 - a.2) := by
    field_simp
  have ha2x : a2.1 = a.1 + ((a2.2 - a.2) / (b.2 - a.2)) * (b.1 - a.1) := by
    unfold orient at hca
    field_simp
    linarith
  have ha2e : a2 = ((a.1 + ((a2.2 - a.2) / (b.2 - a.2)) * (b.1 - a.1),
      a.2 + ((a2.2 - a.2) / (b.2 - a.2)) * (b.2 - a.2)) : Point) :=
    Prod.ext ha2x ha2y
  have ha2l : a2 ∈ l := (cycleEdges_mem l (a2, b2) he2).1
  obtain ⟨g, hg, hg2⟩ := cycleEdges_pred l a2 ha2l
  have hal : a ∈ l := (cycleEdges_mem l (a, b) he).1
  have h1 : 0 ≤ orient g.1 g.2 a := hcc g hg a hal
  rw [hg2] at h1
  have h2aux : ∀ t : ℚ, a2 = ((a.1 + t * (b.1 - a.1), a.2 + t * (b.2 - a.2)) : Point) →
      orient g.1 a2 a = -(t * orient a b g.1) := by
    intro t ht
    rw [ht]
    exact orient_inner a b g.1 t
  have h2 := h2aux ((a2.2 - a.2) / (b.2 - a.2)) ha2e
  have hg1l : g.1 ∈ l := (cycleEdges_mem l g hg).1
  have h3 : 0 ≤ orient a b g.1 := hcc (a, b) he g.1 hg1l
  have h4 : orient a b g.1 = 0 := by nlinarith
  have htr : (g.1, ((a2 : Point), b2)) ∈ cycleTriples l :=
    cycleTriples_of_adj l hnd g (a2, b2) hg he2 hg2
  have hturn2 := hturn _ htr
  have hcol := orient_collinear3 a b g.1 a2 b2 (ne_of_gt hdy) h4 hca hcb
  dsimp only at hturn2
  rw [hcol] at hturn2
  exact lt_irrefl 0 hturn2

theorem ccw_upward_unique_aux (l : List Point) (hnd : l.Nodup)
    (hcc : ∀ e ∈ cycleEdges l, ∀ p ∈ l, 0 ≤ orient e.1 e.2 p)
    (hturn : ∀ tr ∈ cycleTriples l, 0 < orient tr.1 tr.2.1 tr.2.2)
    (y : ℚ) (a1 b1 a2 b2 : Point)
    (he1 : (a1, b1) ∈ cycleEdges l) (he2 : (a2, b2) ∈ cycleEdges l)
    (hu1 : upwardAt y (a1, b1)) (hu2 : upwardAt y (a2, b2))
    (hca : orient a1 b1 a2 = 0) (hcb : orient a1 b1 b2 = 0) :
    ((a1, b1) : Point × Point) = (a2, b2) := by
  obtain ⟨h1a, h1b⟩ := (upward_iff y a1 b1).mp hu1
  have hdy1 : 0 < b1.2 - a1.2 := by linarith
  rcases lt_trichotomy a1.2 a2.2 with h | h | h
  · exact (ccw_upward_core l hnd hcc hturn y a1 b1 a2 b2 he1 he2 hu1 hu2 hca hcb h).elim
  · have h' : a2.2 - a1.2 = 0 := by linarith
    have hzero : (b1.2 - a1.2) * (a2.1 - a1.1) = 0 := by
      unfold orient at hca
      linear_combination -hca + (b1.1 - a1.1) * h'
    have hx : a2.1 - a1.1 = 0 :=
      (mul_eq_zero.mp hzero).resolve_left (ne_of_gt hdy1)
    have ha12 : a1 = a2 := Prod.ext (by linarith) h
    exact cycleEdges_fst_inj l hnd (a1, b1) (a2, b2) he1 he2 ha12
  · have hca' : orient a2 b2 a1 = 0 :=
      orient_collinear3 a1 b1 a2 b2 a1 (ne_of_gt hdy1) hca hcb (orient_base_left a1 b1)
    have hcb' : orient a2 b2 b1 = 0 :=
      orient_collinear3 a1 b1 a2 b2 b1 (ne_of_gt hdy1) hca hcb (orient_base_right a1 b1)
    exact (ccw_upward_core l hnd hcc hturn y a2 b2 a1 b1 he2 he1 hu2 hu1 hca' hcb' h).elim

theorem ccw_upward_unique (l : List Point) (hnd : l.Nodup)
    (hcc : ∀ e ∈ cycleEdges l, ∀ p ∈ l, 0 ≤ orient e.1 e.2 p)
    (hturn : ∀ tr ∈ cycleTriples l, 0 < orient tr.1 tr.2.1 tr.2.2)
    (y : ℚ) (e1 e2 : Point × Point)
    (he1 : e1 ∈ cycleEdges l) (he2 : e2 ∈ cycleEdges l)
    (hu1 : upwardAt y e1) (hu2 : upwardAt y e2) : e1 = e2 := by
  obtain ⟨a1, b1⟩ := e1
  obtain ⟨a2, b2⟩ := e2
  obtain ⟨h1a, h1b⟩ := (upward_iff y a1 b1).mp hu1
  obtain ⟨h2a, h2b⟩ := (upward_iff y a2 b2).mp hu2
  have hdy1 : 0 < b1.2 - a1.2 := by linarith
  have hdy2 : 0 < b2.2 - a2.2 := by linarith
  have hWa1 : 0 ≤ orient a2 b2 a1 := hcc (a2, b2) he2 a1 (cycleEdges_mem l (a1, b1) he1).1
  have hWb1 : 0 ≤ orient a2 b2 b1 := hcc (a2, b2) he2 b1 (cycleEdges_mem l (a1, b1) he1).2
  have hWa2 : 0 ≤ orient a1 b1 a2 := hcc (a1, b1) he1 a2 (cycleEdges_mem l (a2, b2) he2).1
  have hWb2 : 0 ≤ orient a1 b1 b2 := hcc (a1, b1) he1 b2 (cycleEdges_mem l (a2, b2) he2).2
  have ht10 : 0 < (y - a1.2) / (b1.2 - a1.2) := div_pos (by linarith) hdy1
  have ht11 : (y - a1.2) / (b1.2 - a1.2) ≤ 1 := by
    rw [div_le_one hdy1]; linarith
  have ht20 : 0 < (y - a2.2) / (b2.2 - a2.2) := div_pos (by linarith) hdy2
  have ht21 : (y - a2.2) / (b2.2 - a2.2) ≤ 1 := by
    rw [div_le_one hdy2]; linarith
  have hcomb1 := orient_combW a2 b2 a1 b1 y (ne_of_gt hdy1)
  have hW1 : 0 ≤ orient a2 b2 ((xinterOf y (a1, b1), y) : Point) := by
    rw [hcomb1]
    exact add_nonneg (mul_nonneg (by linarith) hWa1)
      (mul_nonneg (le_of_lt ht10) hWb1)
  have hheight1 := orient_at_height a2 b2 (xinterOf y (a1, b1)) y (ne_of_gt hdy2)
  have hx12 : xinterOf y (a1, b1) ≤ xinterOf y (a2, b2) := by
    by_contra hcon
    push_neg at hcon
    nlinarith [mul_pos hdy2 (sub_pos.mpr hcon)]
  have hcomb2 := orient_combW a1 b1 a2 b2 y (ne_of_gt hdy2)
  have hW2 : 0 ≤ orient a1 b1 ((xinterOf y (a2, b2), y) : Point) := by
    rw [hcomb2]
    exact add_nonneg (mul_nonneg (by linarith) hWa2)
      (mul_nonneg (le_of_lt ht20) hWb2)
  have hheight2 := orient_at_height a1 b1 (xinterOf y (a2, b2)) y (ne_of_gt hdy1)
  have hx21 : xinterOf y (a2, b2) ≤ xinterOf y (a1, b1) := by
    by_contra hcon
    push_neg at hcon
    nlinarith [mul_pos hdy1 (sub_pos.mpr hcon)]
  have hxeq : xinterOf y (a2, b2) = xinterOf y (a1, b1) := le_antisymm hx21 hx12
  have hzero2 : 0 = (1 - (y - a2.2) / (b2.2 - a2.2)) * orient a1 b1 a2 +
      ((y - a2.2) / (b2.2 - a2.2)) * orient a1 b1 b2 := by
    rw [← hcomb2, hxeq, orient_at_height a1 b1 _ y (ne_of_gt hdy1)]
    ring
  have hb2c : orient a1 b1 b2 = 0 := by
    have hble : orient a1 b1 b2 ≤ 0 := by
      by_contra hcon
      push_neg at hcon
      nlinarith [mul_pos ht20 hcon, mul_nonneg (by linarith : (0 : ℚ) ≤ 1 - (y - a2.2) / (b2.2 - a2.2)) hWa2]
    exact le_antisymm hble hWb2
  by_cases ht2lt : (y - a2.2) / (b2.2 - a2.2) < 1
  · have ha2c : orient a1 b1 a2 = 0 := by
      rw [hb2c] at hzero2
      have hz : (1 - (y - a2.2) / (b2.2 - a2.2)) * orient a1 b1 a2 = 0 := by
        linarith [hzero2]
      have h1t : (0 : ℚ) < 1 - (y - a2.2) / (b2.2 - a2.2) := by linarith
      exact (mul_eq_zero.mp hz).resolve_left (ne_of_gt h1t)
    exact ccw_upward_unique_aux l hnd hcc hturn y a1 b1 a2 b2 he1 he2 hu1 hu2 ha2c hb2c
  · have ht2e : (y - a2.2) / (b2.2 - a2.2) = 1 := le_antisymm ht21 (not_lt.mp ht2lt)
    have hyb2 : y = b2.2 := by
      rw [div_eq_one_iff_eq (ne_of_gt hdy2)] at ht2e
      linarith
    have hb2x : b2.1 = xinterOf y (a2, b2) := by
      unfold xinterOf
      dsimp only
      rw [hyb2]
      field_simp
    by_cases ht1lt : (y - a1.2) / (b1.2 - a1.2) < 1
    · have hzero1 : 0 = (1 - (y - a1.2) / (b1.2 - a1.2)) * orient a2 b2 a1 +
          ((y - a1.2) / (b1.2 - a1.2)) * orient a2 b2 b1 := by
        rw [← hcomb1, ← hxeq, orient_at_height a2 b2 _ y (ne_of_gt hdy2)]
        ring
      have hb1c : orient a2 b2 b1 = 0 := by
        have hble : orient a2 b2 b1 ≤ 0 := by
          by_contra hcon
          push_neg at hcon
          nlinarith [mul_pos ht10 hcon, mul_nonneg (by linarith : (0 : ℚ) ≤ 1 - (y - a1.2) / (b1.2 - a1.2)) hWa1]
        exact le_antisymm hble hWb1
      have ha1c : orient a2 b2 a1 = 0 := by
        rw [hb1c] at hzero1
        have hz : (1 - (y - a1.2) / (b1.2 - a1.2)) * orient a2 b2 a1 = 0 := by
          linarith [hzero1]
        have h1t : (0 : ℚ) < 1 - (y - a1.2) / (b1.2 - a1.2) := by linarith
        exact (mul_eq_zero.mp hz).resolve_left (ne_of_gt h1t)
      have hca : orient a1 b1 a2 = 0 :=
        orient_collinear3 a2 b2 a1 b1 a2 (ne_of_gt hdy2) ha1c hb1c (orient_base_left a2 b2)
      exact ccw_upward_unique_aux l hnd hcc hturn y a1 b1 a2 b2 he1 he2 hu1 hu2 hca hb2c
    · have ht1e : (y - a1.2) / (b1.2 - a1.2) = 1 := le_antisymm ht11 (not_lt.mp ht1lt)
      have hyb1 : y = b1.2 := by
        rw [div_eq_one_iff_eq (ne_of_gt hdy1)] at ht1e
        linarith
      have hb1x : b1.1 = xinterOf y (a1, b1) := by
        unfold xinterOf
        dsimp only
        rw [hyb1]
        field_simp
      have hbb : b1 = b2 := by
        apply Prod.ext
        · rw [hb1x, ← hxeq, ← hb2x]
        · rw [← hyb1]
          exact hyb2
      exact cycleEdges_snd_inj l hnd (a1, b1) (a2, b2) he1 he2 hbb

theorem orient_rev3 (a b c : Point) : orient c b a = -orient a b c := by
  unfold orient; ring

theorem zip_snoc_trunc (A B : List Point) (w : Point)
    (h : A.length = B.length) : (A ++ [w]).zip B = A.zip B := by
  conv_lhs => rw [show B = B ++ [] from (List.append_nil B).symm]
  rw [List.zip_append h]
  simp

theorem rise_zip (y : ℚ) : ∀ (xs : List Point) (a : Point), a.2 < y →
    (∃ b ∈ xs, y ≤ b.2) → ∃ e ∈ (a :: xs).zip xs, e.1.2 < y ∧ y ≤ e.2.2 := by
  intro xs
  induction xs with
  | nil =>
    intro a ha hb
    obtain ⟨b, hbm, _⟩ := hb
    exact absurd hbm (List.not_mem_nil b)
  | cons c t ih =>
    intro a ha hb
    by_cases hc : y ≤ c.2
    · refine ⟨(a, c), ?_, ha, hc⟩
      rw [List.zip_cons_cons]
      exact List.mem_cons_self _ _
    · push_neg at hc
      obtain ⟨b, hbm, hby⟩ := hb
      have hbt : b ∈ t := by
        rcases List.mem_cons.mp hbm with h | h
        · exact absurd hby (by rw [h]; exact not_le.mpr hc)
        · exact h
      obtain ⟨e, hem, he⟩ := ih c hc ⟨b, hbt, hby⟩
      refine ⟨e, ?_, he⟩
      rw [List.zip_cons_cons]
      exact List.mem_cons_of_mem _ hem

theorem rise_chain (y : ℚ) (w : Point) (hw : y ≤ w.2) :
    ∀ (ys : List Point) (a : Point), (∃ p ∈ a :: ys, p.2 < y) →
    ∃ e ∈ (a :: (ys ++ [w])).zip (ys ++ [w]), e.1.2 < y ∧ y ≤ e.2.2 := by
  intro ys
  induction ys with
  | nil =>
    intro a hp
    obtain ⟨p, hpm, hpy⟩ := hp
    have hpa : p = a := by
      rcases List.mem_cons.mp hpm with h | h
      · exact h
      · exact absurd h (List.not_mem_nil p)
    refine ⟨(a, w), ?_, by rw [← hpa]; exact hpy, hw⟩
    rw [List.nil_append, List.zip_cons_cons]
    exact List.mem_cons_self _ _
  | cons c t ih =>
    intro a hp
    by_cases hay : a.2 < y
    · exact rise_zip y ((c :: t) ++ [w]) a hay
        ⟨w, List.mem_append_right _ (List.mem_cons_self w []), hw⟩
    · push_neg at hay
      obtain ⟨p, hpm, hpy⟩ := hp
      have hpt : p ∈ c :: t := by
        rcases List.mem_cons.mp hpm with h | h
        · exact absurd hpy (by rw [h]; exact not_lt.mpr hay)
        · exact h
      obtain ⟨e, hem, he⟩ := ih c ⟨p, hpt, hpy⟩
      refine ⟨e, ?_, he⟩
      show e ∈ (a :: c :: (t ++ [w])).zip (c :: (t ++ [w]))
      rw [List.zip_cons_cons]
      exact List.mem_cons_of_mem _ hem

theorem upward_exists (l : List Point) (hne : l ≠ []) (y : ℚ)
    (hlow : ∃ p ∈ l, p.2 < y) (hhigh : ∃ q ∈ l, y ≤ q.2) :
    ∃ e ∈ cycleEdges l, upwardAt y e := by
  obtain ⟨v, rest, rfl⟩ := List.exists_cons_of_ne_nil hne
  have hzip : cycleEdges (v :: rest) = (v :: (rest ++ [v])).zip (rest ++ [v]) := by
    show (v :: rest).zip (rest ++ [v]) = _
    rw [show v :: (rest ++ [v]) = (v :: rest) ++ [v] from rfl]
    rw [zip_snoc_trunc (v :: rest) (rest ++ [v]) v (by simp)]
  rw [hzip]
  by_cases hv : v.2 < y
  · obtain ⟨q, hqm, hqy⟩ := hhigh
    have hq : q ∈ rest ++ [v] := by
      rcases List.mem_cons.mp hqm with h | h
      · exact absurd hqy (by rw [h]; exact not_le.mpr hv)
      · exact List.mem_append_left _ h
    obtain ⟨e, hem, h1, h2⟩ := rise_zip y (rest ++ [v]) v hv ⟨q, hq, hqy⟩
    exact ⟨e, hem, h1, h2⟩
  · push_neg at hv
    obtain ⟨e, hem, h1, h2⟩ := rise_chain y v hv rest v hlow
    exact ⟨e, hem, h1, h2⟩

theorem cycleEdges_reverse_mem (l : List Point) (e : Point × Point)
    (he : e ∈ cycleEdges l) :
    ((e.2, e.1) : Point × Point) ∈ cycleEdges l.reverse := by
  rw [cycleEdges_eq_zip_rotate] at he
  rw [cycleEdges_eq_zip_rotate]
  obtain ⟨k, hk, hek⟩ := List.mem_iff_getElem.mp he
  have hkl : k < l.length := by
    rw [List.length_zip, List.length_rotate] at hk
    omega
  have h0 : 0 < l.length := by omega
  have hkr : k < (l.rotate 1).length := by
    rw [List.length_rotate]; exact hkl
  rw [List.getElem_zip, List.getElem_rotate] at hek
  have hmod : (k + 1) % l.length < l.length := Nat.mod_lt _ h0
  have he1 : e.1 = l[k] := by rw [← hek]
  have he2 : e.2 = l[(k + 1) % l.length] := by rw [← hek]
  rw [List.mem_iff_getElem]
  have hjl : l.length - 1 - (k + 1) % l.length < l.length := by omega
  refine ⟨l.length - 1 - (k + 1) % l.length, ?_, ?_⟩
  · rw [List.length_zip, List.length_rotate, List.length_reverse]
    omega
  · have hb1 : l.length - 1 - (k + 1) % l.length < l.reverse.length := by
      rw [List.length_reverse]; exact hjl
    have hb2 : l.length - 1 - (k + 1) % l.length < (l.reverse.rotate 1).length := by
      rw [List.length_rotate, List.length_reverse]; exact hjl
    rw [List.getElem_zip, List.getElem_rotate]
    simp only [List.length_reverse]
    rw [List.getElem_reverse, List.getElem_reverse]
    rcases Nat.lt_or_ge (k + 1) l.length with hc | hc
    · have e1 : (k + 1) % l.length = k + 1 := Nat.mod_eq_of_lt hc
      simp only [e1] at he2 ⊢
      have f1 : (l.length - 1 - (k + 1) + 1) % l.length = l.length - 1 - (k + 1) + 1 :=
        Nat.mod_eq_of_lt (by omega)
      simp only [f1]
      have g0 : l.length - 1 - (l.length - 1 - (k + 1)) = k + 1 := by omega
      have g1 : l.length - 1 - (l.length - 1 - (k + 1) + 1) = k := by omega
      simp only [g0, g1]
      rw [he1, he2]
    · have hkn : k + 1 = l.length := by omega
      have e1 : (k + 1) % l.length = 0 := by rw [hkn, Nat.mod_self]
      simp only [e1] at he2 ⊢
      simp only [Nat.sub_zero]
      have f1 : (l.length - 1 + 1) % l.length = 0 := by
        rw [show l.length - 1 + 1 = l.length from by omega, Nat.mod_self]
      simp only [f1, Nat.sub_zero]
      have g0 : l.length - 1 - (l.length - 1) = 0 := by omega
      simp only [g0]
      have g1 : l.length - 1 = k := by omega
      simp only [g1]
      rw [he1, he2]

theorem cycleEdges_reverse_mem_iff (l : List Point) (e : Point × Point) :
    e ∈ cycleEdges l.reverse ↔ ((e.2, e.1) : Point × Point) ∈ cycleEdges l := by
  constructor
  · intro he
    have h := cycleEdges_reverse_mem l.reverse e he
    rw [List.reverse_reverse] at h
    exact h
  · intro he
    have h := cycleEdges_reverse_mem l (e.2, e.1) he
    exact h

theorem cycleTriples_reverse_mem (l : List Point) (h3 : 3 ≤ l.length)
    (tr : Point × Point × Point) (htr : tr ∈ cycleTriples l) :
    ((tr.2.2, tr.2.1, tr.1) : Point × Point × Point) ∈ cycleTriples l.reverse := by
  unfold cycleTriples at htr ⊢
  obtain ⟨k, hk, hek⟩ := List.mem_iff_getElem.mp htr
  have hkl : k < l.length := by
    rw [List.length_zip, List.length_zip, List.length_rotate, List.length_rotate] at hk
    omega
  have h0 : 0 < l.length := by omega
  have hkr1 : k < (l.rotate 1).length := by rw [List.length_rotate]; exact hkl
  have hkr2 : k < (l.rotate 2).length := by rw [List.length_rotate]; exact hkl
  have hkz : k < ((l.rotate 1).zip (l.rotate 2)).length := by
    rw [List.length_zip, List.length_rotate, List.length_rotate]; omega
  rw [List.getElem_zip, List.getElem_zip, List.getElem_rotate, List.getElem_rotate] at hek
  have hm1 : (k + 1) % l.length < l.length := Nat.mod_lt _ h0
  have hm2 : (k + 2) % l.length < l.length := Nat.mod_lt _ h0
  have ht1 : tr.1 = l[k] := by rw [← hek]
  have ht2 : tr.2.1 = l[(k + 1) % l.length] := by rw [← hek]
  have ht3 : tr.2.2 = l[(k + 2) % l.length] := by rw [← hek]
  rw [List.mem_iff_getElem]
  have hjl : l.length - 1 - (k + 2) % l.length < l.length := by omega
  refine ⟨l.length - 1 - (k + 2) % l.length, ?_, ?_⟩
  · rw [List.length_zip, List.length_zip, List.length_rotate, List.length_rotate,
      List.length_reverse]
    omega
  · have hb0 : l.length - 1 - (k + 2) % l.length < l.reverse.length := by
      rw [List.length_reverse]; exact hjl
    have hb1 : l.length - 1 - (k + 2) % l.length < (l.reverse.rotate 1).length := by
      rw [List.length_rotate, List.length_reverse]; exact hjl
    have hb2 : l.length - 1 - (k + 2) % l.length < (l.reverse.rotate 2).length := by
      rw [List.length_rotate, List.length_reverse]; exact hjl
    have hbz : l.length - 1 - (k + 2) % l.length <
        ((l.reverse.rotate 1).zip (l.reverse.rotate 2)).length := by
      rw [List.length_zip, List.length_rotate, List.length_rotate, List.length_reverse]
      omega
    rw [List.getElem_zip, List.getElem_zip, List.getElem_rotate, List.getElem_rotate]
    simp only [List.length_reverse]
    rw [List.getElem_reverse, List.getElem_reverse, List.getElem_reverse]
    rcases Nat.lt_or_ge (k + 2) l.length with hc | hc
    · have e2 : (k + 2) % l.length = k + 2 := Nat.mod_eq_of_lt hc
      have e1 : (k + 1) % l.length = k + 1 := Nat.mod_eq_of_lt (by omega)
      simp only [e1] at ht2
      simp only [e2] at ht3 ⊢
      have f1 : (l.length - 1 - (k + 2) + 1) % l.length = l.length - 1 - (k + 2) + 1 :=
        Nat.mod_eq_of_lt (by omega)
      have f2 : (l.length - 1 - (k + 2) + 2) % l.length = l.length - 1 - (k + 2) + 2 :=
        Nat.mod_eq_of_lt (by omega)
      simp only [f1, f2]
      have g0 : l.length - 1 - (l.length - 1 - (k + 2)) = k + 2 := by omega
      have g1 : l.length - 1 - (l.length - 1 - (k + 2) + 1) = k + 1 := by omega
      have g2 : l.length - 1 - (l.length - 1 - (k + 2) + 2) = k := by omega
      simp only [g0, g1, g2]
      rw [ht1, ht2, ht3]
    · rcases Nat.lt_or_ge (k + 1) l.length with hc1 | hc1
      · have hkn : k + 2 = l.length := by omega
        have e2 : (k + 2) % l.length = 0 := by rw [hkn, Nat.mod_self]
        have e1 : (k + 1) % l.length = k + 1 := Nat.mod_eq_of_lt hc1
        simp only [e1] at ht2
        simp only [e2] at ht3 ⊢
        simp only [Nat.sub_zero]
        have f1 : (l.length - 1 + 1) % l.length = 0 := by
          rw [show l.length - 1 + 1 = l.length from by omega, Nat.mod_self]
        have f2 : (l.length - 1 + 2) % l.length = 1 := by
          rw [show l.length - 1 + 2 = l.length + 1 from by omega, Nat.add_mod_left]
          exact Nat.mod_eq_of_lt (by omega)
        simp only [f1, f2, Nat.sub_zero]
        have g0 : l.length - 1 - (l.length - 1) = 0 := by omega
        have g2 : l.length - 1 - 1 = k := by omega
        simp only [g0, g2]
        have g1 : l.length - 1 = k + 1 := by omega
        simp only [g1]
        rw [ht1, ht2, ht3]
      · have hkn : k + 1 = l.length := by omega
        have e1 : (k + 1) % l.length = 0 := by rw [hkn, Nat.mod_self]
        have e2 : (k + 2) % l.length = 1 := by
          rw [show k + 2 = l.length + 1 from by omega, Nat.add_mod_left]
          exact Nat.mod_eq_of_lt (by omega)
        simp only [e1] at ht2
        simp only [e2] at ht3 ⊢
        have f1 : (l.length - 1 - 1 + 1) % l.length = l.length - 1 := by
          rw [show l.length - 1 - 1 + 1 = l.length - 1 from by omega]
          exact Nat.mod_eq_of_lt (by omega)
        have f2 : (l.length - 1 - 1 + 2) % l.length = 0 := by
          rw [show l.length - 1 - 1 + 2 = l.length from by omega, Nat.mod_self]
        simp only [f1, f2, Nat.sub_zero]
        have g0 : l.length - 1 - (l.length - 1 - 1) = 1 := by omega
        have g1 : l.length - 1 - (l.length - 1) = 0 := by omega
        simp only [g0, g1]
        have g2 : l.length - 1 = k := by omega
        simp only [g2]
        rw [ht1, ht2, ht3]

theorem cycleTriples_reverse_mem_iff (l : List Point) (h3 : 3 ≤ l.length)
    (tr : Point × Point × Point) :
    tr ∈ cycleTriples l.reverse ↔
      ((tr.2.2, tr.2.1, tr.1) : Point × Point × Point) ∈ cycleTriples l := by
  constructor
  · intro htr
    have h := cycleTriples_reverse_mem l.reverse (by rw [List.length_reverse]; exact h3) tr htr
    rw [List.reverse_reverse] at h
    exact h
  · intro htr
    exact cycleTriples_reverse_mem l h3 (tr.2.2, tr.2.1, tr.1) htr

theorem ccw_of_cw_reverse (l : List Point) (h3 : 3 ≤ l.length) (hcw : cwRing l) :
    ccwRing l.reverse := by
  obtain ⟨hcc, hturn⟩ := hcw
  constructor
  · intro e he p hp
    have h : orient e.2 e.1 p ≤ 0 :=
      hcc (e.2, e.1) ((cycleEdges_reverse_mem_iff l e).mp he) p (List.mem_reverse.mp hp)
    rw [orient_rev] at h
    linarith
  · intro tr htr
    have h : orient tr.2.2 tr.2.1 tr.1 < 0 :=
      hturn (tr.2.2, tr.2.1, tr.1) ((cycleTriples_reverse_mem_iff l h3 tr).mp htr)
    rw [orient_rev3] at h
    linarith

theorem centroidPt_reverse (l : List Point) : centroidPt l.reverse = centroidPt l := by
  unfold centroidPt
  rw [List.map_reverse, List.map_reverse, List.sum_reverse, List.sum_reverse,
    List.length_reverse]

theorem cycleEdges_nodup (l : List Point) (hnd : l.Nodup) : (cycleEdges l).Nodup := by
  have hmap : (cycleEdges l).map Prod.fst = l := by
    rw [cycleEdges_eq_zip_rotate]
    exact List.map_fst_zip _ _ (le_of_eq (List.length_rotate l 1).symm)
  have h : ((cycleEdges l).map Prod.fst).Nodup := by rw [hmap]; exact hnd
  exact List.Nodup.of_map Prod.fst h

theorem heights_not_all_eq (l : List Point) (h0 : 0 < l.length)
    (hturn : ∀ tr ∈ cycleTriples l, orient tr.1 tr.2.1 tr.2.2 ≠ 0) :
    ¬ ∀ p ∈ l, ∀ q ∈ l, p.2 = q.2 := by
  intro hall
  obtain ⟨tr, htr⟩ := cycleTriples_exists l h0
  obtain ⟨h1, h2, h3⟩ := cycleTriples_mem l tr htr
  have ha : tr.2.1.2 = tr.1.2 := hall _ h2 _ h1
  have hb : tr.2.2.2 = tr.1.2 := hall _ h3 _ h1
  apply hturn tr htr
  unfold orient
  rw [ha, hb]
  ring

theorem centroid_sum_snd (l : List Point) (hne : l ≠ []) :
    (l.map Prod.snd).sum = (l.length : ℚ) * (centroidPt l).2 := by
  have hn : (l.length : ℚ) ≠ 0 := by
    exact_mod_cast Nat.pos_iff_ne_zero.mp (List.length_pos.mpr hne)
  unfold centroidPt
  dsimp only
  rw [mul_comm]
  exact (div_mul_cancel₀ _ hn).symm

theorem centroid_y_spread (l : List Point) (hne : l ≠ [])
    (hnot : ¬ ∀ p ∈ l, ∀ q ∈ l, p.2 = q.2) :
    (∃ p ∈ l, p.2 < (centroidPt l).2) ∧ (∃ q ∈ l, (centroidPt l).2 ≤ q.2) := by
  push_neg at hnot
  obtain ⟨p0, hp0, q0, hq0, hpq⟩ := hnot
  have hsum := centroid_sum_snd l hne
  constructor
  · by_contra hcon
    push_neg at hcon
    have hstrict : ∃ w ∈ l, (centroidPt l).2 < w.2 := by
      rcases lt_or_gt_of_ne hpq with hlt | hgt
      · exact ⟨q0, hq0, lt_of_le_of_lt (hcon p0 hp0) hlt⟩
      · exact ⟨p0, hp0, lt_of_le_of_lt (hcon q0 hq0) hgt⟩
    obtain ⟨w, hw, hwgt⟩ := hstrict
    obtain ⟨s, t, hst⟩ := List.append_of_mem hw
    have hsum2 : ((s ++ w :: t).map Prod.snd).sum =
        (l.length : ℚ) * (centroidPt l).2 := by
      rw [← hst]; exact hsum
    simp only [List.map_append, List.map_cons, List.sum_append, List.sum_cons] at hsum2
    have hsba : ∀ x ∈ s.map Prod.snd, (centroidPt l).2 ≤ x := by
      intro x hx
      obtain ⟨p, hp, rfl⟩ := List.mem_map.mp hx
      exact hcon p (by rw [hst]; exact List.mem_append_left _ hp)
    have htba : ∀ x ∈ t.map Prod.snd, (centroidPt l).2 ≤ x := by
      intro x hx
      obtain ⟨p, hp, rfl⟩ := List.mem_map.mp hx
      refine hcon p ?_
      rw [hst]
      exact List.mem_append_right _ (List.mem_cons_of_mem _ hp)
    have hsb := List.card_nsmul_le_sum (s.map Prod.snd) (centroidPt l).2 hsba
    have htb := List.card_nsmul_le_sum (t.map Prod.snd) (centroidPt l).2 htba
    rw [List.length_map, nsmul_eq_mul] at hsb htb
    have hlen : (l.length : ℚ) = (s.length : ℚ) + (t.length : ℚ) + 1 := by
      rw [hst]
      push_cast [List.length_append, List.length_cons]
      ring
    rw [hlen] at hsum2
    nlinarith [hsb, htb, hwgt, hsum2]
  · by_contra hcon
    push_neg at hcon
    obtain ⟨v, rest, rfl⟩ := List.exists_cons_of_ne_nil hne
    have hrba : ∀ x ∈ rest.map Prod.snd, x ≤ (centroidPt (v :: rest)).2 := by
      intro x hx
      obtain ⟨p, hp, rfl⟩ := List.mem_map.mp hx
      exact le_of_lt (hcon p (List.mem_cons_of_mem _ hp))
    have hrb := List.sum_le_card_nsmul (rest.map Prod.snd) (centroidPt (v :: rest)).2 hrba
    rw [List.length_map, nsmul_eq_mul] at hrb
    have hv : v.2 < (centroidPt (v :: rest)).2 := hcon v (List.mem_cons_self v rest)
    simp only [List.map_cons, List.sum_cons] at hsum
    have hlen : (((v :: rest).length : ℕ) : ℚ) = (rest.length : ℚ) + 1 := by
      push_cast [List.length_cons]
      ring
    rw [hlen] at hsum
    linarith

theorem centroid_left (l : List Point) (h0 : 0 < l.length) (hccw : ccwRing l)
    (e : Point × Point) (he : e ∈ cycleEdges l) :
    0 < orient e.1 e.2 (centroidPt l) := by
  obtain ⟨hcc, hturn⟩ := hccw
  have hne : l ≠ [] := List.length_pos.mp h0
  rw [orient_centroid e.1 e.2 l hne]
  apply div_pos
  · obtain ⟨w, hwl, hwtr⟩ := cycleTriples_of_edge l e he
    have hwpos : 0 < orient e.1 e.2 w := hturn (e.1, (e.2, w)) hwtr
    obtain ⟨s, t, hst⟩ := List.append_of_mem hwl
    have hmap : (l.map (fun p => orient e.1 e.2 p)).sum =
        (s.map (fun p => orient e.1 e.2 p)).sum +
          (orient e.1 e.2 w + (t.map (fun p => orient e.1 e.2 p)).sum) := by
      rw [hst]
      simp [List.map_append, List.sum_append]
    have hs0 : 0 ≤ (s.map (fun p => orient e.1 e.2 p)).sum := by
      apply List.sum_nonneg
      intro x hx
      obtain ⟨p, hp, rfl⟩ := List.mem_map.mp hx
      exact hcc e he p (by rw [hst]; exact List.mem_append_left _ hp)
    have ht0 : 0 ≤ (t.map (fun p => orient e.1 e.2 p)).sum := by
      apply List.sum_nonneg
      intro x hx
      obtain ⟨p, hp, rfl⟩ := List.mem_map.mp hx
      refine hcc e he p ?_
      rw [hst]
      exact List.mem_append_right _ (List.mem_cons_of_mem _ hp)
    rw [hmap]
    linarith
  · exact_mod_cast h0

theorem centroid_right (l : List Point) (h3 : 3 ≤ l.length) (hcw : cwRing l)
    (e : Point × Point) (he : e ∈ cycleEdges l) :
    orient e.1 e.2 (centroidPt l) < 0 := by
  have hccw := ccw_of_cw_reverse l h3 hcw
  have hrev : ((e.2, e.1) : Point × Point) ∈ cycleEdges l.reverse :=
    cycleEdges_reverse_mem l e he
  have h0 : 0 < l.reverse.length := by rw [List.length_reverse]; omega
  have h : 0 < orient e.2 e.1 (centroidPt l.reverse) :=
    centroid_left l.reverse h0 hccw (e.2, e.1) hrev
  rw [centroidPt_reverse, orient_rev] at h
  linarith

theorem downward_exists (l : List Point) (hne : l ≠ []) (y : ℚ)
    (hlow : ∃ p ∈ l, p.2 < y) (hhigh : ∃ q ∈ l, y ≤ q.2) :
    ∃ e ∈ cycleEdges l, downwardAt y e := by
  have hner : l.reverse ≠ [] := fun h => hne (List.reverse_eq_nil_iff.mp h)
  obtain ⟨e, hem, hup⟩ := upward_exists l.reverse hner y
    (by obtain ⟨p, hp, h⟩ := hlow; exact ⟨p, List.mem_reverse.mpr hp, h⟩)
    (by obtain ⟨q, hq, h⟩ := hhigh; exact ⟨q, List.mem_reverse.mpr hq, h⟩)
  exact ⟨(e.2, e.1), (cycleEdges_reverse_mem_iff l e).mp hem, hup.1, hup.2⟩

theorem cw_downward_unique (l : List Point) (h3 : 3 ≤ l.length) (hnd : l.Nodup)
    (hcw : cwRing l) (y : ℚ) (e1 e2 : Point × Point)
    (he1 : e1 ∈ cycleEdges l) (he2 : e2 ∈ cycleEdges l)
    (hd1 : downwardAt y e1) (hd2 : downwardAt y e2) : e1 = e2 := by
  obtain ⟨hcc, hturn⟩ := ccw_of_cw_reverse l h3 hcw
  have h := ccw_upward_unique l.reverse (by rw [List.nodup_reverse]; exact hnd)
    hcc hturn y (e1.2, e1.1) (e2.2, e2.1)
    (cycleEdges_reverse_mem l e1 he1) (cycleEdges_reverse_mem l e2 he2)
    ⟨hd1.1, hd1.2⟩ ⟨hd2.1, hd2.2⟩
  have h1 : e1.2 = e2.2 := congrArg Prod.fst h
  have h2 : e1.1 = e2.1 := congrArg Prod.snd h
  exact Prod.ext h2 h1

theorem pipVal_closed (x y : ℚ) (v : Point) (rest : List Point) :
    pipVal x y ((v :: rest) ++ [v]) = pipVal x y (v :: rest) := by
  unfold pipVal
  rw [cycleEdges_closed, List.foldl_append, List.foldl_cons, pipStepP_self,
    List.foldl_nil]

theorem pipVal_centroid_of_unique (x y : ℚ) (v : Point) (rest : List Point)
    (hnd : (v :: rest).Nodup) (et : Point × Point)
    (hetm : et ∈ cycleEdges (v :: rest))
    (htt : toggleB x y et = true)
    (hothers : ∀ e ∈ cycleEdges (v :: rest), e ≠ et → toggleB x y e = false) :
    pipVal x y (v :: rest) = true := by
  obtain ⟨L1, L2, hdec⟩ := List.append_of_mem hetm
  have hnodup := cycleEdges_nodup (v :: rest) hnd
  rw [hdec] at hnodup
  obtain ⟨hn1, hn2, hdisj⟩ := List.nodup_append.mp hnodup
  have hets : et ∉ L1 := fun h => hdisj h (List.mem_cons_self _ _)
  have hetl2 : et ∉ L2 := (List.nodup_cons.mp hn2).1
  apply pipVal_of_unique_toggle x y v rest L1 L2 et hdec ?_ htt ?_
  · intro e he
    have hne : e ≠ et := fun h => hets (h ▸ he)
    exact hothers e (by rw [hdec]; exact List.mem_append_left _ he) hne
  · intro e he
    have hne : e ≠ et := fun h => hetl2 (h ▸ he)
    exact hothers e
      (by rw [hdec]; exact List.mem_append_right _ (List.mem_cons_of_mem _ he)) hne

theorem polygon_centroid_closed (v : Point) (rest : List Point) :
    polygon_centroid ((v :: rest) ++ [v]) = some (centroidPt (v :: rest)) := by
  have h : polygon_centroid (v :: (rest ++ [v])) =
      match (if v = (v :: (rest ++ [v])).getLast (List.cons_ne_nil v (rest ++ [v]))
        then (v :: (rest ++ [v])).dropLast else v :: (rest ++ [v])) with
      | [] => some ((0 : ℚ), (0 : ℚ))
      | u :: us =>
        some (((u :: us).map Prod.fst).sum / (((u :: us).length : ℚ)),
              ((u :: us).map Prod.snd).sum / (((u :: us).length : ℚ))) := rfl
  show polygon_centroid (v :: (rest ++ [v])) = _
  rw [h]
  have hcond : v = (v :: (rest ++ [v])).getLast (List.cons_ne_nil v (rest ++ [v])) := by
    simp
  rw [if_pos hcond]
  rw [show (v :: (rest ++ [v])).dropLast = ((v :: rest) ++ [v]).dropLast from rfl,
    List.dropLast_concat]
  rfl

theorem pipVal_centroid_true (v : Point) (rest : List Point)
    (hconv : convexRing (v :: rest)) :
    pipVal (centroidPt (v :: rest)).1 (centroidPt (v :: rest)).2 (v :: rest) = true := by
  obtain ⟨h3, hnd, hor⟩ := hconv
  have h0 : 0 < (v :: rest).length := by omega
  have hne : (v :: rest) ≠ [] := List.cons_ne_nil v rest
  have hturn0 : ∀ tr ∈ cycleTriples (v :: rest), orient tr.1 tr.2.1 tr.2.2 ≠ 0 := by
    intro tr htr
    rcases hor with hccw | hcw
    · exact ne_of_gt (hccw.2 tr htr)
    · exact ne_of_lt (hcw.2 tr htr)
  obtain ⟨hlow, hhigh⟩ :=
    centroid_y_spread (v :: rest) hne (heights_not_all_eq (v :: rest) h0 hturn0)
  rcases hor with hccw | hcw
  · have hleft : ∀ e ∈ cycleEdges (v :: rest),
        0 < orient e.1 e.2 (centroidPt (v :: rest)) :=
      fun e he => centroid_left (v :: rest) h0 hccw e he
    obtain ⟨et, hetm, hetup⟩ :=
      upward_exists (v :: rest) hne (centroidPt (v :: rest)).2 hlow hhigh
    apply pipVal_centroid_of_unique _ _ v rest hnd et hetm
    · have hiff : toggleB (centroidPt (v :: rest)).1 (centroidPt (v :: rest)).2 et = true ↔
          upwardAt (centroidPt (v :: rest)).2 et :=
        toggleB_left_iff (centroidPt (v :: rest)).1 (centroidPt (v :: rest)).2 et.1 et.2
          (hleft et hetm)
      exact hiff.mpr hetup
    · intro e he hne2
      have hiff : toggleB (centroidPt (v :: rest)).1 (centroidPt (v :: rest)).2 e = true ↔
          upwardAt (centroidPt (v :: rest)).2 e :=
        toggleB_left_iff (centroidPt (v :: rest)).1 (centroidPt (v :: rest)).2 e.1 e.2
          (hleft e he)
      rcases Bool.eq_false_or_eq_true
          (toggleB (centroidPt (v :: rest)).1 (centroidPt (v :: rest)).2 e) with ht | hf
      · exfalso
        apply hne2
        exact ccw_upward_unique (v :: rest) hnd hccw.1 hccw.2 (centroidPt (v :: rest)).2
          e et he hetm (hiff.mp ht) hetup
      · exact hf
  · have hright : ∀ e ∈ cycleEdges (v :: rest),
        orient e.1 e.2 (centroidPt (v :: rest)) < 0 :=
      fun e he => centroid_right (v :: rest) h3 hcw e he
    obtain ⟨et, hetm, hetdn⟩ :=
      downward_exists (v :: rest) hne (centroidPt (v :: rest)).2 hlow hhigh
    apply pipVal_centroid_of_unique _ _ v rest hnd et hetm
    · have hiff : toggleB (centroidPt (v :: rest)).1 (centroidPt (v :: rest)).2 et = true ↔
          downwardAt (centroidPt (v :: rest)).2 et :=
        toggleB_right_iff (centroidPt (v :: rest)).1 (centroidPt (v :: rest)).2 et.1 et.2
          (hright et hetm)
      exact hiff.mpr hetdn
    · intro e he hne2
      have hiff : toggleB (centroidPt (v :: rest)).1 (centroidPt (v :: rest)).2 e = true ↔
          downwardAt (centroidPt (v :: rest)).2 e :=
        toggleB_right_iff (centroidPt (v :: rest)).1 (centroidPt (v :: rest)).2 e.1 e.2
          (hright e he)
      rcases Bool.eq_false_or_eq_true
          (toggleB (centroidPt (v :: rest)).1 (centroidPt (v :: rest)).2 e) with ht | hf
      · exfalso
        apply hne2
        exact cw_downward_unique (v :: rest) h3 hnd hcw (centroidPt (v :: rest)).2
          e et he hetm (hiff.mp ht) hetdn
      · exact hf

/-- Claim C5: for every convex simple polygon, given as a closed ring
`(v :: rest) ++ [v]` whose open part has at least 3 pairwise distinct
vertices with every corner a strict turn and all vertices on one side of
every edge, `polygon_centroid` returns the vertex centroid, that centroid
satisfies `point_in_polygon`, and `find_interior_point` therefore returns
it with the method tag `"centroid"`. -/
theorem convex_centroid_inside (sq : ℚ → ℚ) (precision : ℚ) (v : Point)
    (rest : List Point) (hconv : convexRing (v :: rest)) :
    polygon_centroid ((v :: rest) ++ [v]) = some (centroidPt (v :: rest)) ∧
    point_in_polygon (centroidPt (v :: rest)).1 (centroidPt (v :: rest)).2
      ((v :: rest) ++ [v]) = some true ∧
    find_interior_point sq ((v :: rest) ++ [v]) precision =
      some (centroidPt (v :: rest), "centroid") := by
  have hcent := polygon_centroid_closed v rest
  have hpip : point_in_polygon (centroidPt (v :: rest)).1 (centroidPt (v :: rest)).2
      ((v :: rest) ++ [v]) = some true := by
    show point_in_polygon _ _ (v :: (rest ++ [v])) = some true
    rw [point_in_polygon_eq]
    rw [show v :: (rest ++ [v]) = (v :: rest) ++ [v] from rfl, pipVal_closed,
      pipVal_centroid_true v rest hconv]
  refine ⟨hcent, hpip, ?_⟩
  have hcent2 : polygon_centroid (v :: (rest ++ [v])) = some (centroidPt (v :: rest)) :=
    hcent
  have hpip2 : point_in_polygon (centroidPt (v :: rest)).1 (centroidPt (v :: rest)).2
      (v :: (rest ++ [v])) = some true := hpip
  unfold find_interior_point
  simp [hcent2, hpip2]

/-- Witness for C5 on the unit-ten square, whose open ring is convex. -/
theorem convex_centroid_inside_witness :
    convexRing [((0 : ℚ), (0 : ℚ)), (10, 0), (10, 10), (0, 10)] ∧
    (polygon_centroid ([((0 : ℚ), (0 : ℚ)), (10, 0), (10, 10), (0, 10)] ++ [(0, 0)]) =
        some (centroidPt [((0 : ℚ), (0 : ℚ)), (10, 0), (10, 10), (0, 10)]) ∧
      point_in_polygon (centroidPt [((0 : ℚ), (0 : ℚ)), (10, 0), (10, 10), (0, 10)]).1
        (centroidPt [((0 : ℚ), (0 : ℚ)), (10, 0), (10, 10), (0, 10)]).2
        ([((0 : ℚ), (0 : ℚ)), (10, 0), (10, 10), (0, 10)] ++ [(0, 0)]) = some true ∧
      find_interior_point sqId
          ([((0 : ℚ), (0 : ℚ)), (10, 0), (10, 10), (0, 10)] ++ [(0, 0)]) 5 =
        some (centroidPt [((0 : ℚ), (0 : ℚ)), (10, 0), (10, 10), (0, 10)], "centroid")) :=
  ⟨by unfold convexRing ccwRing cwRing; with_unfolding_all decide,
   convex_centroid_inside sqId 5 ((0 : ℚ), (0 : ℚ)) [(10, 0), (10, 10), (0, 10)]
     (by unfold convexRing ccwRing cwRing; with_unfolding_all decide)⟩
